import Mathlib

/-!
The package `ujson`: typed JSON value trees.

A shallow embedding of `ujson.go`: the `decode` case table, the value model
(`Object`, `Array`, `NumberInt`, `NumberUint`, `NumberFloat`, `String`, `Bool`,
`Null`), the re-encoding `MarshalJSON` and the canonical `Array.Sort`.

The program calls three standard-library packages: `encoding/json`
(`json.Unmarshal` into an `interface{}`, `json.Marshal` of scalars, maps and
slices), `sort` (`sort.SliceStable`) and, through `encoding/json`, `strconv`.
Their text-level behaviour is gathered in the record `Json`, over which the
definitions and the general theorems are parametrised; `goJson` is the
reference instance used for the concrete documents.
-/

namespace Ujson

/-! ## Go values -/

/-- A Go `[]byte` or `string`: a sequence of bytes. -/
abbrev Bytes := List Nat

/-- A Go `float64`, by its IEEE 754 binary64 fields. -/
structure Float64 where
  sign : Bool
  expo : Fin 2048
  frac : Fin 4503599627370496
deriving DecidableEq, Repr

/-- The function `math.IsNaN`. -/
def Float64.IsNaN (f : Float64) : Bool := f.expo.val == 2047 && f.frac.val != 0

/-- The function `math.IsInf(f, 0)`. -/
def Float64.IsInf (f : Float64) : Bool := f.expo.val == 2047 && f.frac.val == 0

/-- The dynamic values an `interface{}` can hold, as far as the type switch of
`decode` tells them apart: the seven recognised shapes, `nil`, and `other` for
a value of any other dynamic type. A Go map is given by its entries. -/
inductive Generic where
  | map (entries : List (Bytes × Generic))
  | seq (elems : List Generic)
  | bool (v : Bool)
  | string (v : Bytes)
  | int64 (v : Int)
  | uint64 (v : Nat)
  | float64 (v : Float64)
  | nil
  | other

/-- The value model: one constructor for each struct that implements `Any`,
with the struct's `data` field as argument. `Object` holds the entries of its
(allocated) map. `Array` holds its slice; the slice is nil until the first
`Append` and nothing shrinks it, so the empty list is the nil slice. -/
inductive Any where
  | Object (data : List (Bytes × Any))
  | Array (data : List Any)
  | NumberInt (data : Int)
  | NumberUint (data : Nat)
  | NumberFloat (data : Float64)
  | String (data : Bytes)
  | Bool (data : Bool)
  | Null

/-- The errors `json.Unmarshal` returns when the target is an `interface{}`,
by their type: a `*json.SyntaxError` for text that is not JSON, a
`*json.UnmarshalTypeError` for a number outside the range of `float64`. -/
inductive JsonError where
  | SyntaxError
  | UnmarshalTypeError
deriving DecidableEq, Repr

/-- The standard-library behaviour the program relies on.
`Unmarshal data` is `json.Unmarshal(data, &v)` for `var v interface{}`: the
value stored in `v`, or the error. `escape s` is the body of the JSON string
literal that `json.Marshal` writes for the Go string `s` (the text between the
quotes). `formatFloat f` is the text that `json.Marshal` writes for a finite
`float64`. -/
structure Json where
  Unmarshal : Bytes → Except JsonError Generic
  escape : Bytes → Bytes
  formatFloat : Float64 → Bytes

/-! ## Byte strings -/

/-- The comparison `s < t` of two Go strings: byte-wise lexicographic. -/
def strLess : Bytes → Bytes → Bool
  | [], [] => false
  | [], _ :: _ => true
  | _ :: _, [] => false
  | a :: s, b :: t => a < b || (a == b && strLess s t)

/-- The decimal digits of a natural number, most significant first, by
repeated division; `fuel` bounds the number of digits. -/
def digitsAux : Nat → Nat → Bytes → Bytes
  | 0, _, acc => acc
  | fuel + 1, n, acc =>
    if n < 10 then (48 + n) :: acc else digitsAux fuel (n / 10) ((48 + n % 10) :: acc)

/-- The text `strconv.AppendUint(nil, n, 10)`. -/
def formatUint (n : Nat) : Bytes := digitsAux (n + 1) n []

/-- The text `strconv.AppendInt(nil, i, 10)`. -/
def formatInt (i : Int) : Bytes :=
  if i < 0 then 45 :: formatUint i.natAbs else formatUint i.natAbs

/-- The elements of `parts` with `sep` between them, as `json.Marshal` joins
the members of an array or object with a comma. -/
def joinWith (sep : Nat) : List Bytes → Bytes
  | [] => []
  | [p] => p
  | p :: q :: rest => p ++ sep :: joinWith sep (q :: rest)

/-! ## sort.SliceStable -/

/-- One pass of the inner loop of the library's insertion sort: the new
element `x` moves left over each predecessor `p` with `less x p` and stops at
the first one without. The sorted prefix is given in reverse (last element
first). -/
def insertBack {α : Type} (less : α → α → Bool) (x : α) : List α → List α
  | [] => [x]
  | p :: rest => if less x p then p :: insertBack less x rest else x :: p :: rest

/-- The outer loop of the insertion sort, over the elements not yet placed;
`done` is the sorted prefix in reverse. -/
def insertionLoop {α : Type} (less : α → α → Bool) : List α → List α → List α
  | done, [] => done.reverse
  | done, x :: todo => insertionLoop less (insertBack less x done) todo

/-- The function `sort.SliceStable(x, less)` with `less(i, j)` comparing the
elements at `i` and `j`. The library sorts a slice of up to 20 elements by
this insertion sort, and a longer one in blocks of 20 that it merges stably
(`symMerge`). For a `less` that is a strict weak order, as the one of
`Array.Sort`, every stable sort returns the same slice (`SliceStable_unique`),
so the model is the insertion sort over the whole slice. -/
def SliceStable {α : Type} (less : α → α → Bool) (x : List α) : List α :=
  insertionLoop less [] x

/-! ## The program -/

/-- The assignment `m[key] = v` on the entries of a map. -/
def mapSet {β : Type} (key : Bytes) (v : β) : List (Bytes × β) → List (Bytes × β)
  | [] => [(key, v)]
  | (k, w) :: rest => if k = key then (k, v) :: rest else (k, w) :: mapSet key v rest

/-- The entries of a map in the key order of `json.Marshal` (keys compared as
strings). -/
def sortedEntries {β : Type} (m : List (Bytes × β)) : List (Bytes × β) :=
  SliceStable (fun p q => strLess p.1 q.1) m

/-- The results of encoding each element, or `none` if one of them failed. -/
def allSome {β : Type} : List (Option β) → Option (List β)
  | [] => some []
  | none :: _ => none
  | some b :: rest => (allSome rest).map (b :: ·)

/-- The results of encoding each member value, or `none` if one of them
failed. -/
def allSomeSnd {β : Type} : List (Bytes × Option β) → Option (List (Bytes × β))
  | [] => some []
  | (_, none) :: _ => none
  | (k, some b) :: rest => (allSomeSnd rest).map ((k, b) :: ·)

/-- The text `json.Marshal` writes for a map, from the encodings of its
values: the members in key order, each as the quoted key, a colon and the
value, between braces; an error if a value failed to encode. -/
def objectText (J : Json) (members : List (Bytes × Option Bytes)) : Option Bytes :=
  (allSomeSnd (sortedEntries members)).map fun ms =>
    123 :: joinWith 44 (ms.map fun p => (34 :: J.escape p.1 ++ [34]) ++ 58 :: p.2) ++ [125]

/-- The text `json.Marshal` writes for a slice, from the encodings of its
elements: `null` for the nil slice, else the elements between brackets; an
error if an element failed to encode. -/
def arrayText : List (Option Bytes) → Option Bytes
  | [] => some [110, 117, 108, 108]
  | p :: ps => (allSome (p :: ps)).map fun ts => 91 :: joinWith 44 ts ++ [93]

mutual
/-- The methods `MarshalJSON` of the eight variants; `none` is a non-nil
error (returned with nil bytes). Each calls `json.Marshal` on the `data`
field: a map is written with its keys sorted, a nil slice as `null`, a
non-finite float is an `UnsupportedValueError`, and a member that implements
`json.Marshaler` (every `Any`) is written by its own `MarshalJSON`. -/
def Any.MarshalJSON (J : Json) : Any → Option Bytes
  | .Object data => objectText J (marshalFields J data)
  | .Array data => arrayText (marshalElems J data)
  | .NumberInt data => some (formatInt data)
  | .NumberUint data => some (formatUint data)
  | .NumberFloat data =>
    if data.IsInf || data.IsNaN then none else some (J.formatFloat data)
  | .String data => some (34 :: J.escape data ++ [34])
  | .Bool data => some (if data then [116, 114, 117, 101] else [102, 97, 108, 115, 101])
  | .Null => some [110, 117, 108, 108]
/-- The encodings of the elements of a slice, in order. -/
def marshalElems (J : Json) : List Any → List (Option Bytes)
  | [] => []
  | x :: xs => Any.MarshalJSON J x :: marshalElems J xs
/-- The encodings of the values of a map, each with its key. -/
def marshalFields (J : Json) : List (Bytes × Any) → List (Bytes × Option Bytes)
  | [] => []
  | (k, x) :: rest => (k, Any.MarshalJSON J x) :: marshalFields J rest
end

/-- The string `string(ai)` of the comparison in `Array.Sort`, where
`ai, _ := json.Marshal(a.data[i])`: the encoding, and the empty string when
`json.Marshal` fails (its bytes are nil then). -/
def sortKey (J : Json) (x : Any) : Bytes := (Any.MarshalJSON J x).getD []

/-- The method `Array.Append`, on the slice. -/
def Array.Append (data : List Any) (v : Any) : List Any := data ++ [v]

/-- The method `Array.Sort`, on the slice. -/
def Array.Sort (J : Json) (data : List Any) : List Any :=
  SliceStable (fun x y => strLess (sortKey J x) (sortKey J y)) data

mutual
/-- The function `decode`. -/
def decode (J : Json) : Generic → Bool → Any
  | .map entries, needSort => .Object (decodeEntries J entries needSort [])
  | .seq elems, needSort =>
    let a := decodeElems J elems needSort []
    .Array (if needSort then Array.Sort J a else a)
  | .bool v, _ => .Bool v
  | .string v, _ => .String v
  | .int64 v, _ => .NumberInt v
  | .uint64 v, _ => .NumberUint v
  | .float64 v, _ => .NumberFloat v
  | .nil, _ => .Null
  | .other, _ => .Null
/-- The loop `for i := range v { a.Append(decode(v[i], needSort)) }`, with `a`
the slice built so far. -/
def decodeElems (J : Json) : List Generic → Bool → List Any → List Any
  | [], _, a => a
  | x :: rest, needSort, a => decodeElems J rest needSort (Array.Append a (decode J x needSort))
/-- The loop `for key, value := range v { a.data[key] = decode(value, needSort) }`,
with `a` the map built so far. -/
def decodeEntries (J : Json) :
    List (Bytes × Generic) → Bool → List (Bytes × Any) → List (Bytes × Any)
  | [], _, a => a
  | (key, value) :: rest, needSort, a =>
    decodeEntries J rest needSort (mapSet key (decode J value needSort) a)
end

/-- The comparison `s <= t` of two Go strings. -/
def strLe (s t : Bytes) : Bool := strLess s t || decide (s = t)

/-- Whether each element's sort key is at most that of the next element. -/
def keysAscending (J : Json) : List Any → Bool
  | [] => true
  | [_] => true
  | x :: y :: rest => strLe (sortKey J x) (sortKey J y) && keysAscending J (y :: rest)

mutual
/-- Whether every `Array` node of the tree, at every depth, has its elements
in ascending order of their sort keys. -/
def Canonical (J : Json) : Any → Bool
  | .Object data => canonicalFields J data
  | .Array data => keysAscending J data && canonicalElems J data
  | _ => true
/-- The check `Canonical` on each element of a slice. -/
def canonicalElems (J : Json) : List Any → Bool
  | [] => true
  | x :: xs => Canonical J x && canonicalElems J xs
/-- The check `Canonical` on each value of a map. -/
def canonicalFields (J : Json) : List (Bytes × Any) → Bool
  | [] => true
  | (_, x) :: rest => Canonical J x && canonicalFields J rest
end

mutual
/-- The generic value `w` is `v` with the elements of some of its sequences,
at any depths, permuted. -/
inductive Reorder : Generic → Generic → Prop
  | same (v : Generic) : Reorder v v
  | seq {xs zs ys : List Generic} :
    ReorderElems xs zs → List.Perm zs ys → Reorder (.seq xs) (.seq ys)
  | map {es fs : List (Bytes × Generic)} :
    ReorderEntries es fs → Reorder (.map es) (.map fs)
/-- The relation `Reorder` between the elements of two sequences, position by
position. -/
inductive ReorderElems : List Generic → List Generic → Prop
  | nil : ReorderElems [] []
  | cons {x y : Generic} {xs ys : List Generic} :
    Reorder x y → ReorderElems xs ys → ReorderElems (x :: xs) (y :: ys)
/-- The relation `Reorder` between the values of two maps with the same
keys. -/
inductive ReorderEntries : List (Bytes × Generic) → List (Bytes × Generic) → Prop
  | nil : ReorderEntries [] []
  | cons {k : Bytes} {x y : Generic} {es fs : List (Bytes × Generic)} :
    Reorder x y → ReorderEntries es fs → ReorderEntries ((k, x) :: es) ((k, y) :: fs)
end

/-- The function `Unmarshal`: the pair `(Any, error)` it returns, `none` for
nil. -/
def Unmarshal (J : Json) (data : Bytes) : Option Any × Option JsonError :=
  match J.Unmarshal data with
  | .error err => (none, some err)
  | .ok v => (some (decode J v false), none)

/-- The function `UnmarshalWithSort`. -/
def UnmarshalWithSort (J : Json) (data : Bytes) : Option Any × Option JsonError :=
  match J.Unmarshal data with
  | .error err => (none, some err)
  | .ok v => (some (decode J v true), none)

/-! ## The standard library, on text

A model of the parts of `encoding/json`, `strconv` and `unicode/utf8` behind
`json.Unmarshal` into an `interface{}` and `json.Marshal` of a string or a
`float64` (Go 1.22). It gives the reference instance `goJson`. -/

/-- The bit length of `n` (`bits.Len`); `fuel` bounds the number of bits. -/
def bitLen : Nat → Nat → Nat
  | 0, _ => 0
  | fuel + 1, n => if n = 0 then 0 else bitLen fuel (n / 2) + 1

/-- The fraction `v.1 / v.2` times two to the power `k`. -/
def scale2 (v : Nat × Nat) (k : Int) : Nat × Nat :=
  if 0 ≤ k then (v.1 * 2 ^ k.toNat, v.2) else (v.1, v.2 * 2 ^ (-k).toNat)

/-- The fraction `v.1 / v.2` times ten to the power `k`. -/
def scale10 (v : Nat × Nat) (k : Int) : Nat × Nat :=
  if 0 ≤ k then (v.1 * 10 ^ k.toNat, v.2) else (v.1, v.2 * 10 ^ (-k).toNat)

/-- The `float64` nearest to the fraction `num / den` (`den` positive), ties
to the even mantissa, with the given sign: the rounding `strconv.ParseFloat`
performs. The result is `none` when the nearest value is beyond the largest
finite `float64` (the error `strconv.ErrRange`). -/
def roundFloat (sign : Bool) (num den : Nat) : Option Float64 :=
  if num = 0 then some ⟨sign, 0, 0⟩
  else
    let e0 : Int := (bitLen (num + 1) num : Int) - (bitLen (den + 1) den : Int)
    let s0 := scale2 (num, den) (-e0)
    let e : Int := if s0.2 ≤ s0.1 then e0 else e0 - 1
    let sh : Int := max (e - 52) (-1074)
    let s := scale2 (num, den) (-sh)
    let m0 := s.1 / s.2
    let r2 := 2 * (s.1 % s.2)
    let m1 := if s.2 < r2 ∨ (r2 = s.2 ∧ m0 % 2 = 1) then m0 + 1 else m0
    let m := if m1 = 2 ^ 53 then 2 ^ 52 else m1
    let sh1 : Int := if m1 = 2 ^ 53 then sh + 1 else sh
    if m < 2 ^ 52 then some ⟨sign, 0, ⟨m % 4503599627370496, Nat.mod_lt _ (by decide)⟩⟩
    else if 2047 ≤ sh1 + 1075 then none
    else some ⟨sign, ⟨(sh1 + 1075).toNat % 2048, Nat.mod_lt _ (by decide)⟩,
      ⟨(m - 2 ^ 52) % 4503599627370496, Nat.mod_lt _ (by decide)⟩⟩

/-- The conversion `strconv.ParseFloat(s, 64)` of a decimal numeral with
sign `neg`, digits `mant` and decimal exponent `e10` (the value
`mant * 10 ^ e10`). -/
def parseFloat (neg : Bool) (mant : Nat) (e10 : Int) : Option Float64 :=
  let v := scale10 (mant, 1) e10
  roundFloat neg v.1 v.2

/-- Whether the byte is a decimal digit. -/
def isDigit (c : Nat) : Bool := decide (48 ≤ c) && decide (c ≤ 57)

/-- Whether the byte is JSON whitespace. -/
def isSpace (c : Nat) : Bool := c == 32 || c == 9 || c == 13 || c == 10

/-- The input after its leading whitespace. -/
def skipSpace : Bytes → Bytes
  | [] => []
  | c :: rest => if isSpace c then skipSpace rest else c :: rest

/-- The leading decimal digits of the input, and the rest. -/
def takeDigits : Bytes → Bytes × Bytes
  | [] => ([], [])
  | c :: rest =>
    if isDigit c then ((c :: (takeDigits rest).1), (takeDigits rest).2) else ([], c :: rest)

/-- The number written by a sequence of decimal digits. -/
def digitsVal (ds : Bytes) : Nat := ds.foldl (fun n c => 10 * n + (c - 48)) 0

/-- The integer part of a JSON number: `0`, or a nonzero digit followed by
digits. -/
def scanInt : Bytes → Option (Bytes × Bytes)
  | [] => none
  | c :: rest =>
    if c = 48 then some ([48], rest)
    else if 49 ≤ c ∧ c ≤ 57 then some (c :: (takeDigits rest).1, (takeDigits rest).2)
    else none

/-- The optional fraction of a JSON number: a dot and at least one digit. -/
def scanFrac : Bytes → Option (Bytes × Bytes)
  | 46 :: rest => if (takeDigits rest).1 = [] then none else some (takeDigits rest)
  | rest => some ([], rest)

/-- The digits of an exponent after its optional sign; at least one. -/
def scanExpDigits (neg : Bool) (input : Bytes) : Option (Int × Bytes) :=
  if (takeDigits input).1 = [] then none
  else some (if neg then -(digitsVal (takeDigits input).1 : Int)
    else (digitsVal (takeDigits input).1 : Int), (takeDigits input).2)

/-- The optional exponent of a JSON number: `e` or `E`, an optional sign and
at least one digit. -/
def scanExp : Bytes → Option (Int × Bytes)
  | [] => some (0, [])
  | c :: rest =>
    if c = 101 ∨ c = 69 then
      match rest with
      | 43 :: rest1 => scanExpDigits false rest1
      | 45 :: rest1 => scanExpDigits true rest1
      | _ => scanExpDigits false rest
    else some (0, c :: rest)

/-- The JSON number at the head of the input (after its optional minus sign
`neg`), converted as `convertNumber` does: the `float64` or a range error,
and the rest of the input; `none` when the input does not start with a
number. -/
def scanNumberAbs (neg : Bool) (input : Bytes) : Option (Option Float64 × Bytes) :=
  match scanInt input with
  | none => none
  | some (ds, r1) =>
    match scanFrac r1 with
    | none => none
    | some (fs, r2) =>
      match scanExp r2 with
      | none => none
      | some (e, r3) => some (parseFloat neg (digitsVal (ds ++ fs)) (e - fs.length), r3)

/-- The JSON number at the head of the input. -/
def scanNumber : Bytes → Option (Option Float64 × Bytes)
  | 45 :: rest => scanNumberAbs true rest
  | input => scanNumberAbs false input

/-- The value of a hexadecimal digit. -/
def hexVal (c : Nat) : Option Nat :=
  if 48 ≤ c ∧ c ≤ 57 then some (c - 48)
  else if 97 ≤ c ∧ c ≤ 102 then some (c - 87)
  else if 65 ≤ c ∧ c ≤ 70 then some (c - 55)
  else none

/-- The function `getu4`: the code unit of a `\uXXXX` escape at the head of
the input. -/
def getu4 : Bytes → Option Nat
  | c0 :: c1 :: a :: b :: c :: d :: _ =>
    if c0 = 92 ∧ c1 = 117 then
      match hexVal a, hexVal b, hexVal c, hexVal d with
      | some x, some y, some z, some w => some (((x * 16 + y) * 16 + z) * 16 + w)
      | _, _, _, _ => none
    else none
  | _ => none

/-- The function `utf8.AppendRune`. -/
def encodeRune (r : Nat) : Bytes :=
  if r < 128 then [r]
  else if r < 2048 then [192 + r / 64, 128 + r % 64]
  else if (55296 ≤ r ∧ r < 57344) ∨ 1114111 < r then [239, 191, 189]
  else if r < 65536 then [224 + r / 4096, 128 + r / 64 % 64, 128 + r % 64]
  else [240 + r / 262144, 128 + r / 4096 % 64, 128 + r / 64 % 64, 128 + r % 64]

/-- Whether the byte is a UTF-8 continuation byte. -/
def isCont (c : Nat) : Bool := decide (128 ≤ c) && decide (c ≤ 191)

/-- The width of the UTF-8 encoding at the head of the input, as
`utf8.DecodeRune` finds it; 0 when the bytes are not a valid encoding (the
result `RuneError, 1`). -/
def runeSize : Bytes → Nat
  | [] => 0
  | [c] => if c < 128 then 1 else 0
  | c :: d :: rest =>
    if c < 128 then 1
    else if c < 194 then 0
    else if c < 224 then (if isCont d then 2 else 0)
    else if c < 240 then
      (if (if c = 224 then decide (160 ≤ d) && decide (d ≤ 191)
          else if c = 237 then decide (128 ≤ d) && decide (d ≤ 159) else isCont d) then
        (match rest with
          | x :: _ => if isCont x then 3 else 0
          | [] => 0)
      else 0)
    else if c < 245 then
      (if (if c = 240 then decide (144 ≤ d) && decide (d ≤ 191)
          else if c = 244 then decide (128 ≤ d) && decide (d ≤ 143) else isCont d) then
        (match rest with
          | x :: y :: _ => if isCont x && isCont y then 4 else 0
          | _ => 0)
      else 0)
    else 0

/-- The byte a single-character escape stands for. -/
def unescapeChar (c : Nat) : Option Nat :=
  if c = 34 ∨ c = 92 ∨ c = 47 then some c
  else if c = 98 then some 8
  else if c = 102 then some 12
  else if c = 110 then some 10
  else if c = 114 then some 13
  else if c = 116 then some 9
  else none

/-- The rune a `\uXXXX` escape with code unit `rr` yields, given the code unit
`next` of a `\uXXXX` escape that follows it (if one does), and whether that
following escape is consumed as the low half of a surrogate pair. An unpaired
surrogate becomes U+FFFD. -/
def escapedRune (rr : Nat) (next : Option Nat) : Nat × Bool :=
  if 55296 ≤ rr ∧ rr < 57344 then
    match next with
    | some rr1 =>
      if rr < 56320 ∧ 56320 ≤ rr1 ∧ rr1 < 57344 then
        ((rr - 55296) * 1024 + (rr1 - 56320) + 65536, true)
      else (65533, false)
    | none => (65533, false)
  else (rr, false)

/-- The scan of a string literal after its opening quote, with the
conversion of `unquote`: the string so far is `out`; the result is the
string and the input after the closing quote, or `none` for a literal the
scanner rejects. `fuel` bounds the number of steps. -/
def unquote : Nat → Bytes → Bytes → Option (Bytes × Bytes)
  | 0, _, _ => none
  | _ + 1, [], _ => none
  | fuel + 1, c :: rest, out =>
    if c = 34 then some (out, rest)
    else if c = 92 then
      match rest with
      | [] => none
      | e :: rest1 =>
        if e = 117 then
          match getu4 (c :: rest) with
          | none => none
          | some rr =>
            let r := escapedRune rr (getu4 (rest.drop 5))
            unquote fuel (rest.drop (if r.2 then 11 else 5)) (out ++ encodeRune r.1)
        else
          match unescapeChar e with
          | none => none
          | some b => unquote fuel rest1 (out ++ [b])
    else if c < 32 then none
    else if c < 128 then unquote fuel rest (out ++ [c])
    else if runeSize (c :: rest) = 0 then unquote fuel rest (out ++ [239, 191, 189])
    else unquote fuel (rest.drop (runeSize (c :: rest) - 1))
      (out ++ (c :: rest).take (runeSize (c :: rest)))

mutual
/-- The decoding of the JSON value at the head of the input (leading
whitespace already skipped) into an `interface{}`, as `valueInterface` does
after the scanner has accepted the text: an object becomes a
`map[string]interface{}`, an array a `[]interface{}`, a string a `string`, a
number a `float64`, `true` and `false` a `bool`, `null` the nil value. The
result is the value, whether a number was out of range (an error the decoder
saves while it goes on), and the rest of the input; `none` for text the
scanner rejects. `depth` is the number of open arrays and objects, at most
10000; `fuel` bounds the number of steps. -/
def parseValue : Nat → Nat → Bytes → Option (Generic × Bool × Bytes)
  | 0, _, _ => none
  | _ + 1, _, [] => none
  | fuel + 1, depth, c :: rest =>
    if c = 123 then
      (if 10000 ≤ depth then none
      else if (skipSpace rest).head? = some 125 then some (.map [], false, (skipSpace rest).tail)
      else parseMembers fuel (depth + 1) (skipSpace rest) [] false)
    else if c = 91 then
      (if 10000 ≤ depth then none
      else if (skipSpace rest).head? = some 93 then some (.seq [], false, (skipSpace rest).tail)
      else parseElems fuel (depth + 1) (skipSpace rest) [] false)
    else if c = 34 then
      (match unquote fuel rest [] with
      | none => none
      | some (s, rest1) => some (.string s, false, rest1))
    else if c = 116 then
      (if rest.take 3 = [114, 117, 101] then some (.bool true, false, rest.drop 3) else none)
    else if c = 102 then
      (if rest.take 4 = [97, 108, 115, 101] then some (.bool false, false, rest.drop 4)
      else none)
    else if c = 110 then
      (if rest.take 3 = [117, 108, 108] then some (.nil, false, rest.drop 3) else none)
    else
      match scanNumber (c :: rest) with
      | none => none
      | some (some f, rest1) => some (.float64 f, false, rest1)
      | some (none, rest1) => some (.nil, true, rest1)
/-- The elements of an array from the head of an element on; `acc` holds the
elements decoded so far. After an element comes a comma or the closing
bracket. -/
def parseElems : Nat → Nat → Bytes → List Generic → Bool → Option (Generic × Bool × Bytes)
  | 0, _, _, _, _ => none
  | fuel + 1, depth, input, acc, err =>
    match parseValue fuel depth input with
    | none => none
    | some (v, e, rest) =>
      if (skipSpace rest).head? = some 44 then
        parseElems fuel depth (skipSpace (skipSpace rest).tail) (acc ++ [v]) (err || e)
      else if (skipSpace rest).head? = some 93 then
        some (.seq (acc ++ [v]), err || e, (skipSpace rest).tail)
      else none
/-- The members of an object from the head of a key on; `acc` holds the map
built so far (a repeated key overwrites). After a key comes a colon, after a
value a comma or the closing brace. -/
def parseMembers : Nat → Nat → Bytes → List (Bytes × Generic) → Bool →
    Option (Generic × Bool × Bytes)
  | 0, _, _, _, _ => none
  | _ + 1, _, [], _, _ => none
  | fuel + 1, depth, c :: rest, acc, err =>
    if c = 34 then
      match unquote fuel rest [] with
      | none => none
      | some (key, rest1) =>
        if (skipSpace rest1).head? = some 58 then
          match parseValue fuel depth (skipSpace (skipSpace rest1).tail) with
          | none => none
          | some (v, e, rest3) =>
            if (skipSpace rest3).head? = some 44 then
              parseMembers fuel depth (skipSpace (skipSpace rest3).tail) (mapSet key v acc)
                (err || e)
            else if (skipSpace rest3).head? = some 125 then
              some (.map (mapSet key v acc), err || e, (skipSpace rest3).tail)
            else none
        else none
    else none
end

/-- The function `json.Unmarshal(data, &v)` for `var v interface{}`: a syntax
error when the text is not one JSON value between optional whitespace, else
the saved range error if a number was out of range, else the value. Every
step of the decoding consumes input, so the fuel given here is enough
(`jsonUnmarshal_fuel`). -/
def jsonUnmarshal (data : Bytes) : Except JsonError Generic :=
  match parseValue (2 * data.length + 2) 0 (skipSpace data) with
  | none => .error .SyntaxError
  | some (v, rangeErr, rest) =>
    if skipSpace rest ≠ [] then .error .SyntaxError
    else if rangeErr then .error .UnmarshalTypeError
    else .ok v

/-- The value of a finite `float64` as a fraction. -/
def Float64.toFrac (f : Float64) : Nat × Nat :=
  if f.expo.val = 0 then scale2 (f.frac.val, 1) (-1074)
  else scale2 (f.frac.val + 2 ^ 52, 1) ((f.expo.val : Int) - 1075)

/-- The decimal exponent `k` of a positive fraction `v`, with
`10 ^ k ≤ v < 10 ^ (k + 1)`, searched upwards from `k`. -/
def decExp : Nat → Int → Nat × Nat → Int
  | 0, k, _ => k
  | fuel + 1, k, v =>
    if (scale10 v (-(k + 1))).2 ≤ (scale10 v (-(k + 1))).1 then decExp fuel (k + 1) v else k

/-- The shortest decimal `c * 10 ^ p` that `strconv.ParseFloat` converts to
`f`, the closest to `f` among those of its length (the digits of
`strconv.FormatFloat` with precision -1): tried with `n`, `n + 1`, ...
digits; `v` is the absolute value of `f` and `k` its decimal exponent. -/
def shortest (f : Float64) (v : Nat × Nat) (k : Int) : Nat → Nat → Nat × Int
  | 0, n => ((scale10 v (-(k - n + 1))).1 / (scale10 v (-(k - n + 1))).2, k - n + 1)
  | fuel + 1, n =>
    let p : Int := k - n + 1
    let s := scale10 v (-p)
    let lo := s.1 / s.2
    let r2 := 2 * (s.1 % s.2)
    let okdown := decide (parseFloat f.sign lo p = some f)
    let okup := decide (parseFloat f.sign (lo + 1) p = some f)
    if okdown && okup then
      (if r2 < s.2 ∨ (r2 = s.2 ∧ lo % 2 = 0) then (lo, p) else (lo + 1, p))
    else if okdown then (lo, p)
    else if okup then (lo + 1, p)
    else shortest f v k fuel (n + 1)

/-- The decimal `c * 10 ^ p` without trailing zeros in `c`. -/
def stripZeros : Nat → Nat → Int → Nat × Int
  | 0, c, p => (c, p)
  | fuel + 1, c, p => if c ≠ 0 ∧ c % 10 = 0 then stripZeros fuel (c / 10) (p + 1) else (c, p)

/-- The layout `%f` of the digits `ds` with the decimal point after `dp`
digits. -/
def fmtF (ds : Bytes) (dp : Int) : Bytes :=
  (if 0 < dp then ds.take dp.toNat ++ List.replicate (dp.toNat - ds.length) 48 else [48]) ++
    (if dp < ds.length then 46 :: (List.replicate (-dp).toNat 48 ++ ds.drop dp.toNat) else [])

/-- The layout `%e` of the digits `ds` with the decimal point after `dp`
digits, the exponent written as `encoding/json` leaves it (a one-digit
exponent without its leading zero). -/
def fmtE (ds : Bytes) (dp : Int) : Bytes :=
  ds.take 1 ++ (if 1 < ds.length then 46 :: ds.drop 1 else []) ++
    (101 :: (if dp - 1 < 0 then 45 else 43) :: formatUint (dp - 1).natAbs)

/-- The comparison `v < w` of two fractions. -/
def fracLess (v w : Nat × Nat) : Bool := decide (v.1 * w.2 < w.1 * v.2)

/-- The text the float encoder of `encoding/json` writes:
`strconv.AppendFloat(b, f, fmt, -1, 64)` with the format `e` when
`abs < 1e-6 || abs >= 1e21` (both bounds `float64` constants), and `f`
otherwise. The decimal exponent of a finite nonzero `float64` lies between
-324 and 308, and 17 digits identify any `float64`, which bounds the
searches. -/
def formatFloat (f : Float64) : Bytes :=
  if f.IsNaN then [78, 97, 78]
  else if f.IsInf then (if f.sign then 45 else 43) :: [73, 110, 102]
  else if f.expo.val = 0 ∧ f.frac.val = 0 then (if f.sign then [45, 48] else [48])
  else
    let v := f.toFrac
    let k := decExp 640 (-324) v
    let d := shortest f v k 17 1
    let cp := stripZeros 400 d.1 d.2
    let ds := formatUint cp.1
    let dp : Int := ds.length + cp.2
    let useE := fracLess v ((parseFloat false 1 (-6)).getD f).toFrac ||
      !fracLess v ((parseFloat false 1 21).getD f).toFrac
    (if f.sign then [45] else []) ++ (if useE then fmtE ds dp else fmtF ds dp)

/-- A lower-case hexadecimal digit. -/
def hexDigit (n : Nat) : Nat := if n < 10 then 48 + n else 87 + n

/-- The text the string encoder writes for one ASCII byte (HTML escaping
on). -/
def escapeByte (c : Nat) : Bytes :=
  if c = 34 ∨ c = 92 then [92, c]
  else if c = 8 then [92, 98]
  else if c = 12 then [92, 102]
  else if c = 10 then [92, 110]
  else if c = 13 then [92, 114]
  else if c = 9 then [92, 116]
  else if c < 32 ∨ c = 60 ∨ c = 62 ∨ c = 38 then
    [92, 117, 48, 48, hexDigit (c / 16), hexDigit (c % 16)]
  else [c]

/-- The body of the string literal the encoder writes (`appendString` with
HTML escaping on, without the quotes): bytes that are not valid UTF-8 become
`\ufffd`, U+2028 and U+2029 are escaped. `fuel` bounds the number of steps. -/
def escapeAux : Nat → Bytes → Bytes
  | 0, _ => []
  | _ + 1, [] => []
  | fuel + 1, c :: rest =>
    if c < 128 then escapeByte c ++ escapeAux fuel rest
    else if runeSize (c :: rest) = 0 then [92, 117, 102, 102, 102, 100] ++ escapeAux fuel rest
    else if (c :: rest).take 3 = [226, 128, 168] then
      [92, 117, 50, 48, 50, 56] ++ escapeAux fuel (rest.drop 2)
    else if (c :: rest).take 3 = [226, 128, 169] then
      [92, 117, 50, 48, 50, 57] ++ escapeAux fuel (rest.drop 2)
    else (c :: rest).take (runeSize (c :: rest)) ++
      escapeAux fuel (rest.drop (runeSize (c :: rest) - 1))

/-- The body of the string literal `json.Marshal` writes for a Go string. -/
def escape (s : Bytes) : Bytes := escapeAux (s.length + 1) s

/-- The reference instance: the standard library as modelled above. -/
def goJson : Json := ⟨jsonUnmarshal, escape, formatFloat⟩

/-- The bytes of a text (its UTF-8 encoding). -/
def bytes (s : String) : Bytes := s.data.flatMap fun c => encodeRune c.toNat

/-- Whether `less` ranks neither of `x` and `y` before the other. -/
def tied {α : Type} (less : α → α → Bool) (x y : α) : Bool := !less x y && !less y x

/-- Whether the generic value is an `int64` or a `uint64`. -/
def Generic.isInteger : Generic → Bool
  | .int64 _ => true
  | .uint64 _ => true
  | _ => false

/-- The two properties of `less` under which the insertion sort orders a
slice: a strict weak order. -/
structure StrictWeak {α : Type} (less : α → α → Bool) : Prop where
  asymm : ∀ a b, less a b = true → less b a = false
  negTrans : ∀ a b c, less a b = false → less b c = false → less a c = false

/-! ## Tags and accessors -/

/-- The type `T`: a string. -/
abbrev T := Bytes

/-- The constant `TObject`. -/
def TObject : T := bytes "Object"
/-- The constant `TArray`. -/
def TArray : T := bytes "Array"
/-- The constant `TNumber`. -/
def TNumber : T := bytes "Number"
/-- The constant `TNumberInt`. -/
def TNumberInt : T := bytes "NumberInt"
/-- The constant `TNumberUint`. -/
def TNumberUint : T := bytes "NumberUint"
/-- The constant `TNumberFloat`. -/
def TNumberFloat : T := bytes "NumberFloat"
/-- The constant `TString`. -/
def TString : T := bytes "String"
/-- The constant `TBool`. -/
def TBool : T := bytes "Bool"
/-- The constant `TNull`. -/
def TNull : T := bytes "Null"

/-- The method `T.IsNumber`, on the tag its receiver points to. -/
def T.IsNumber (t : T) : Bool :=
  if t = TNumberInt ∨ t = TNumberUint ∨ t = TNumberFloat then true else false

/-- The methods `T` of the eight variants. -/
def Any.T : Any → T
  | .Object _ => TObject
  | .Array _ => TArray
  | .NumberInt _ => TNumberInt
  | .NumberUint _ => TNumberUint
  | .NumberFloat _ => TNumberFloat
  | .String _ => TString
  | .Bool _ => TBool
  | .Null => TNull

/-- The lookup `m[key]` on the entries of a map. -/
def mapGet {β : Type} (key : Bytes) : List (Bytes × β) → Option β
  | [] => none
  | (k, w) :: rest => if k = key then some w else mapGet key rest

/-- The method `Object.Len`, on the map. -/
def Object.Len (data : List (Bytes × Any)) : Nat := data.length

/-- The method `Object.Keys`, on the map. The loop ranges over the map in an
order Go leaves open; the model takes the order of the entries. -/
def Object.Keys (data : List (Bytes × Any)) : List Bytes := data.map Prod.fst

/-- The method `Object.Value`, on the map: the pair `(v, ok)` of
`v, ok = o.data[key]`, with `none` for the nil `Any` of a missing key. -/
def Object.Value (data : List (Bytes × Any)) (key : Bytes) : Option Any × Bool :=
  match mapGet key data with
  | some v => (some v, true)
  | none => (none, false)

/-- The method `Array.Len`, on the slice. -/
def Array.Len (data : List Any) : Nat := data.length

/-- The method `Array.Index`, on the slice: the element `a.data[i]`, and
`none` for the run-time panic of an index out of range. -/
def Array.Index (data : List Any) (i : Int) : Option Any :=
  if i < 0 then none else data[i.toNat]?

/-- The methods `String` of the eight variants (`render` in the
specification; `Any.String` names the constructor): `Null` gives the empty
string, `String` its contents, each other variant `string(v)` for
`v, _ := json.Marshal(data)` (the empty string when `json.Marshal` fails). -/
def Any.render (J : Json) : Any → Bytes
  | .Object data => (objectText J (marshalFields J data)).getD []
  | .Array data => (arrayText (marshalElems J data)).getD []
  | .NumberInt data => formatInt data
  | .NumberUint data => formatUint data
  | .NumberFloat data => if data.IsInf || data.IsNaN then [] else J.formatFloat data
  | .String data => data
  | .Bool data => if data then [116, 114, 117, 101] else [102, 97, 108, 115, 101]
  | .Null => []

/-- The function `ObjectOK`: the result of the type assertion `a.(Object)`, the
struct given by its `data` field; on a mismatch the zero `Object`, whose map
is nil and has no entries. -/
def ObjectOK : Any → List (Bytes × Any) × Bool
  | .Object data => (data, true)
  | _ => ([], false)

/-- The function `ArrayOK`; on a mismatch the zero `Array` (the nil slice). -/
def ArrayOK : Any → List Any × Bool
  | .Array data => (data, true)
  | _ => ([], false)

/-- The function `NumberIntOK`; on a mismatch the zero `NumberInt`. -/
def NumberIntOK : Any → Int × Bool
  | .NumberInt data => (data, true)
  | _ => (0, false)

/-- The function `NumberUintOK`; on a mismatch the zero `NumberUint`. -/
def NumberUintOK : Any → Nat × Bool
  | .NumberUint data => (data, true)
  | _ => (0, false)

/-- The function `NumberFloatOK`; on a mismatch the zero `NumberFloat`. -/
def NumberFloatOK : Any → Float64 × Bool
  | .NumberFloat data => (data, true)
  | _ => (⟨false, 0, 0⟩, false)

/-- The function `StringOK`; on a mismatch the zero `String`. -/
def StringOK : Any → Bytes × Bool
  | .String data => (data, true)
  | _ => ([], false)

/-- The function `BoolOK`; on a mismatch the zero `Bool`. -/
def BoolOK : Any → Bool × Bool
  | .Bool data => (data, true)
  | _ => (false, false)

/-- The function `NullOK`; `Null` has no field. -/
def NullOK : Any → Unit × Bool
  | .Null => ((), true)
  | _ => ((), false)

/-- The number of the eight accessors that match the value. -/
def matchCount (a : Any) : Nat :=
  [(ObjectOK a).2, (ArrayOK a).2, (NumberIntOK a).2, (NumberUintOK a).2, (NumberFloatOK a).2,
    (StringOK a).2, (BoolOK a).2, (NullOK a).2].count true

/-- Whether `MarshalJSON` of the value fails. -/
def marshalFails (J : Json) (x : Any) : Bool := (Any.MarshalJSON J x).isNone

/-- A `float64` NaN (the quiet NaN `math.NaN()` returns). -/
def Float64.NaN : Float64 := ⟨false, ⟨2047, by decide⟩, ⟨2251799813685249, by decide⟩⟩

/-- Whether the `float64` is finite: neither NaN nor an infinity. -/
def Float64.IsFinite (f : Float64) : Bool := !(f.IsInf || f.IsNaN)

/-- Whether the node, when it is a `NumberFloat`, holds a finite `float64`. -/
def nodeFloatFinite : Any → Bool
  | .NumberFloat data => data.IsFinite
  | _ => true

mutual
/-- Whether every `NumberFloat` node of the tree, at every depth, holds a
finite `float64`. -/
def treeFloatsFinite : Any → Bool
  | .Object data => fieldsFloatsFinite data
  | .Array data => elemsFloatsFinite data
  | .NumberFloat data => data.IsFinite
  | _ => true
/-- The check `treeFloatsFinite` on each element of a slice. -/
def elemsFloatsFinite : List Any → Bool
  | [] => true
  | x :: xs => treeFloatsFinite x && elemsFloatsFinite xs
/-- The check `treeFloatsFinite` on each value of a map. -/
def fieldsFloatsFinite : List (Bytes × Any) → Bool
  | [] => true
  | (_, x) :: rest => treeFloatsFinite x && fieldsFloatsFinite rest
end

mutual
/-- Whether every `float64` in the generic value, at every depth, is
finite. -/
def Generic.floatsFinite : Generic → Bool
  | .map entries => entriesFloatsFinite entries
  | .seq elems => seqFloatsFinite elems
  | .float64 v => v.IsFinite
  | _ => true
/-- The check `Generic.floatsFinite` on each element of a sequence. -/
def seqFloatsFinite : List Generic → Bool
  | [] => true
  | x :: xs => Generic.floatsFinite x && seqFloatsFinite xs
/-- The check `Generic.floatsFinite` on each value of a mapping. -/
def entriesFloatsFinite : List (Bytes × Generic) → Bool
  | [] => true
  | (_, x) :: rest => Generic.floatsFinite x && entriesFloatsFinite rest
end

mutual
/-- The nodes of a tree: the tree itself and the nodes of its children, at
every depth. -/
def subtrees : Any → List Any
  | .Object data => .Object data :: fieldsSubtrees data
  | .Array data => .Array data :: elemsSubtrees data
  | .NumberInt data => [.NumberInt data]
  | .NumberUint data => [.NumberUint data]
  | .NumberFloat data => [.NumberFloat data]
  | .String data => [.String data]
  | .Bool data => [.Bool data]
  | .Null => [.Null]
/-- The nodes of the elements of a slice. -/
def elemsSubtrees : List Any → List Any
  | [] => []
  | x :: xs => subtrees x ++ elemsSubtrees xs
/-- The nodes of the values of a map. -/
def fieldsSubtrees : List (Bytes × Any) → List Any
  | [] => []
  | (_, x) :: rest => subtrees x ++ fieldsSubtrees rest
end

theorem strLess_irrefl (s : Bytes) : strLess s s = false := by
  induction s with
  | nil => rfl
  | cons a s ih => simp [strLess, ih]

theorem strLess_asymm : ∀ (s t : Bytes), strLess s t = true → strLess t s = false
  | [], [], h => by simp [strLess] at h
  | [], _ :: _, _ => by simp [strLess]
  | _ :: _, [], h => by simp [strLess] at h
  | a :: s, b :: t, h => by
    simp only [strLess, Bool.or_eq_true, decide_eq_true_eq, Bool.and_eq_true, beq_iff_eq] at h
    simp only [strLess, Bool.or_eq_false_iff, decide_eq_false_iff_not, Bool.and_eq_false_imp,
      beq_iff_eq]
    rcases h with h | ⟨h1, h2⟩
    · constructor
      · omega
      · intro hb; omega
    · subst h1
      exact ⟨by omega, fun _ => strLess_asymm s t h2⟩

theorem strLess_trans : ∀ (s t u : Bytes), strLess s t = true → strLess t u = true →
    strLess s u = true
  | [], [], _, h, _ => by simp [strLess] at h
  | [], _ :: _, [], _, h => by simp [strLess] at h
  | [], _ :: _, _ :: _, _, _ => by simp [strLess]
  | _ :: _, [], _, h, _ => by simp [strLess] at h
  | _ :: _, _ :: _, [], _, h => by simp [strLess] at h
  | a :: s, b :: t, c :: u, h1, h2 => by
    simp only [strLess, Bool.or_eq_true, decide_eq_true_eq, Bool.and_eq_true, beq_iff_eq] at *
    rcases h1 with h1 | ⟨h1, h1'⟩ <;> rcases h2 with h2 | ⟨h2, h2'⟩
    · left; omega
    · left; omega
    · left; omega
    · right; exact ⟨by omega, strLess_trans s t u h1' h2'⟩

theorem strLess_connected : ∀ (s t : Bytes), strLess s t = false → strLess t s = false → s = t
  | [], [], _, _ => rfl
  | [], _ :: _, h, _ => by simp [strLess] at h
  | _ :: _, [], _, h => by simp [strLess] at h
  | a :: s, b :: t, h1, h2 => by
    simp only [strLess, Bool.or_eq_false_iff, decide_eq_false_iff_not, Bool.and_eq_false_imp,
      beq_iff_eq] at h1 h2
    have hab : a = b := by omega
    subst hab
    rw [strLess_connected s t (h1.2 rfl) (h2.2 rfl)]

/-! ## The stable sort -/

section StableSort
variable {α : Type} (less : α → α → Bool)

theorem insertBack_perm (x : α) : ∀ d : List α, (insertBack less x d).Perm (x :: d)
  | [] => List.Perm.refl _
  | p :: r => by
    unfold insertBack
    split
    · exact ((insertBack_perm x r).cons p).trans (List.Perm.swap x p r)
    · exact List.Perm.refl _

theorem insertionLoop_perm : ∀ (todo done : List α),
    (insertionLoop less done todo).Perm (done.reverse ++ todo)
  | [], done => by simp [insertionLoop]
  | x :: todo, done => by
    unfold insertionLoop
    refine (insertionLoop_perm todo _).trans ?_
    have h2 : (insertBack less x done).reverse.Perm (done.reverse ++ [x]) := by
      refine (List.reverse_perm _).trans ((insertBack_perm less x done).trans ?_)
      exact (List.perm_append_singleton x done).symm.trans
        ((List.reverse_perm done).symm.append_right [x])
    simpa using h2.append_right todo

theorem SliceStable_perm (l : List α) : (SliceStable less l).Perm l := by
  simpa [SliceStable] using insertionLoop_perm less l []

variable {less}

theorem insertBack_pairwise (hw : StrictWeak less) (x : α) :
    ∀ d : List α, d.Pairwise (fun p q => less p q = false) →
      (insertBack less x d).Pairwise (fun p q => less p q = false)
  | [], _ => by simp [insertBack]
  | p :: r, h => by
    unfold insertBack
    rw [List.pairwise_cons] at h
    split
    · rename_i hx
      rw [List.pairwise_cons]
      refine ⟨?_, insertBack_pairwise hw x r h.2⟩
      intro e he
      rcases List.mem_cons.1 ((insertBack_perm less x r).mem_iff.1 he) with he | he
      · subst he; exact hw.asymm _ _ hx
      · exact h.1 e he
    · rename_i hx
      have hx : less x p = false := by simpa using hx
      rw [List.pairwise_cons]
      refine ⟨?_, List.pairwise_cons.2 h⟩
      intro e he
      rcases List.mem_cons.1 he with he | he
      · subst he; exact hx
      · exact hw.negTrans _ _ _ hx (h.1 e he)

theorem insertionLoop_pairwise (hw : StrictWeak less) : ∀ (todo done : List α),
    done.Pairwise (fun p q => less p q = false) →
      (insertionLoop less done todo).Pairwise (fun a b => less b a = false)
  | [], done, h => by simpa [insertionLoop, List.pairwise_reverse] using h
  | x :: todo, done, h => by
    unfold insertionLoop
    exact insertionLoop_pairwise hw todo _ (insertBack_pairwise hw x done h)

theorem SliceStable_pairwise (hw : StrictWeak less) (l : List α) :
    (SliceStable less l).Pairwise (fun a b => less b a = false) :=
  insertionLoop_pairwise hw l [] List.Pairwise.nil

theorem insertionLoop_of_pairwise : ∀ (todo done : List α),
    (done.reverse ++ todo).Pairwise (fun a b => less b a = false) →
      insertionLoop less done todo = done.reverse ++ todo
  | [], done, _ => by simp [insertionLoop]
  | x :: todo, done, h => by
    unfold insertionLoop
    have hx : insertBack less x done = x :: done := by
      cases done with
      | nil => rfl
      | cons p r =>
        have hp : less x p = false := by
          have h1 := (List.pairwise_append.1 h).2.2 p (by simp) x (by simp)
          exact h1
        simp [insertBack, hp]
    rw [hx]
    have := insertionLoop_of_pairwise todo (x :: done) (by simpa using h)
    simpa using this

theorem SliceStable_of_pairwise (l : List α)
    (h : l.Pairwise (fun a b => less b a = false)) : SliceStable less l = l := by
  simpa [SliceStable] using @insertionLoop_of_pairwise _ less l [] (by simpa using h)

theorem SliceStable_idem (hw : StrictWeak less) (l : List α) :
    SliceStable less (SliceStable less l) = SliceStable less l :=
  SliceStable_of_pairwise _ (SliceStable_pairwise hw l)

theorem sublist_insertBack (x : α) : ∀ (d c : List α),
    c.Pairwise (fun p q => less p q = false) → c.Sublist (x :: d) →
      c.Sublist (insertBack less x d)
  | [], c, _, h => by simpa [insertBack] using h
  | p :: r, c, hc, h => by
    unfold insertBack
    split
    · rename_i hx
      cases h with
      | cons _ h =>
        cases h with
        | cons _ h =>
          exact (sublist_insertBack x r c hc (h.cons x)).cons p
        | cons₂ _ h =>
          rename_i c1
          exact (sublist_insertBack x r c1 (List.pairwise_cons.1 hc).2 (h.cons x)).cons₂ p
      | cons₂ _ h =>
        rename_i c1
        cases h with
        | cons _ h =>
          exact (sublist_insertBack x r (x :: c1) hc (h.cons₂ x)).cons p
        | cons₂ _ h =>
          have := (List.pairwise_cons.1 hc).1 p (by simp)
          rw [this] at hx
          exact absurd hx (by simp)
    · exact h

theorem sublist_insertionLoop : ∀ (todo done c : List α),
    c.Pairwise (fun a b => less b a = false) → c.Sublist (done.reverse ++ todo) →
      c.Sublist (insertionLoop less done todo)
  | [], done, c, _, h => by simpa [insertionLoop] using h
  | x :: todo, done, c, hc, h => by
    unfold insertionLoop
    apply sublist_insertionLoop todo _ c hc
    have h' : c.Sublist ((x :: done).reverse ++ todo) := by simpa using h
    obtain ⟨c1, c2, rfl, h1, h2⟩ := List.sublist_append_iff.1 h'
    refine List.Sublist.append ?_ h2
    have hc1 := (List.pairwise_append.1 hc).1
    have := @sublist_insertBack _ less x done c1.reverse
      (by simpa [List.pairwise_reverse] using hc1) (by simpa using h1.reverse)
    simpa using this.reverse

theorem sublist_SliceStable (l c : List α)
    (hc : c.Pairwise (fun a b => less b a = false)) (h : c.Sublist l) :
    c.Sublist (SliceStable less l) :=
  sublist_insertionLoop l [] c hc (by simpa using h)

end StableSort

/-! ## Any stable sort gives the result of SliceStable -/

section Unique
variable {α : Type} {less : α → α → Bool}

theorem StrictWeak.irrefl (hw : StrictWeak less) (a : α) : less a a = false := by
  cases h : less a a with
  | false => rfl
  | true => have := hw.asymm a a h; rw [h] at this; exact this

theorem tied_self (hw : StrictWeak less) (a : α) : tied less a a = true := by
  simp [tied, hw.irrefl]

theorem filter_tied_pairwise (hw : StrictWeak less) (x : α) (l : List α) :
    (l.filter (tied less x)).Pairwise (fun a b => less b a = false) := by
  induction l with
  | nil => exact List.Pairwise.nil
  | cons a t ih =>
    by_cases ha : tied less x a = true
    · rw [List.filter_cons_of_pos ha, List.pairwise_cons]
      refine ⟨?_, ih⟩
      intro b hb
      have hb2 := (List.mem_filter.1 hb).2
      simp only [tied, Bool.and_eq_true, Bool.not_eq_true'] at ha hb2
      exact hw.negTrans _ _ _ hb2.2 ha.1
    · rw [List.filter_cons_of_neg ha]
      exact ih

theorem SliceStable_filter_tied (hw : StrictWeak less) (x : α) (l : List α) :
    (SliceStable less l).filter (tied less x) = l.filter (tied less x) := by
  have h1 : (l.filter (tied less x)).Sublist (SliceStable less l) :=
    sublist_SliceStable l _ (filter_tied_pairwise hw x l) (List.filter_sublist _)
  have h2 : (l.filter (tied less x)).Sublist ((SliceStable less l).filter (tied less x)) := by
    have := h1.filter (tied less x)
    simpa [List.filter_filter] using this
  have h3 := ((SliceStable_perm less l).filter (tied less x)).length_eq
  exact (h2.eq_of_length h3.symm).symm

theorem ordered_eq_of_filter_tied (hw : StrictWeak less) : ∀ (l1 l2 : List α),
    l1.Pairwise (fun a b => less b a = false) → l2.Pairwise (fun a b => less b a = false) →
    (∀ x, l1.filter (tied less x) = l2.filter (tied less x)) → l1 = l2
  | [], [], _, _, _ => rfl
  | [], b :: t2, _, _, h => by
    have := h b
    simp [tied_self hw] at this
  | a :: t1, [], _, _, h => by
    have := h a
    simp [tied_self hw] at this
  | a :: t1, b :: t2, p1, p2, h => by
    rw [List.pairwise_cons] at p1 p2
    have hb1 : b ∈ a :: t1 := by
      have : b ∈ (a :: t1).filter (tied less b) := by
        rw [h b]; simp [tied_self hw]
      exact (List.mem_filter.1 this).1
    have ha2 : a ∈ b :: t2 := by
      have : a ∈ (b :: t2).filter (tied less a) := by
        rw [← h a]; simp [tied_self hw]
      exact (List.mem_filter.1 this).1
    have hba : less b a = false := by
      rcases List.mem_cons.1 hb1 with e | e
      · rw [e]; exact hw.irrefl a
      · exact p1.1 b e
    have hab : less a b = false := by
      rcases List.mem_cons.1 ha2 with e | e
      · rw [e]; exact hw.irrefl b
      · exact p2.1 a e
    have hab' : a = b := by
      have := h a
      rw [List.filter_cons_of_pos (tied_self hw a),
        List.filter_cons_of_pos (by simp [tied, hab, hba])] at this
      exact (List.cons.inj this).1
    subst hab'
    congr 1
    apply ordered_eq_of_filter_tied hw t1 t2 p1.2 p2.2
    intro x
    have := h x
    by_cases hx : tied less x a = true
    · rw [List.filter_cons_of_pos hx, List.filter_cons_of_pos hx] at this
      exact (List.cons.inj this).2
    · rw [List.filter_cons_of_neg hx, List.filter_cons_of_neg hx] at this
      exact this

/-- A slice that is ordered by `less` and keeps, for every element `x`, the
elements tied with `x` in the order they have in `l`, is the slice
`SliceStable less l`: every stable sort returns the same slice. -/
theorem SliceStable_unique (hw : StrictWeak less) (l l1 : List α)
    (ho : l1.Pairwise (fun a b => less b a = false))
    (hs : ∀ x, l1.filter (tied less x) = l.filter (tied less x)) :
    l1 = SliceStable less l :=
  ordered_eq_of_filter_tied hw l1 _ ho (SliceStable_pairwise hw l)
    (fun x => (hs x).trans (SliceStable_filter_tied hw x l).symm)

end Unique

theorem digitsAux_fuel : ∀ (fuel fuel1 n : Nat) (acc : Bytes), n < fuel → n < fuel1 →
    digitsAux fuel n acc = digitsAux fuel1 n acc
  | 0, _, _, _, h, _ => by omega
  | _ + 1, 0, _, _, _, h => by omega
  | fuel + 1, fuel1 + 1, n, acc, h, h1 => by
    unfold digitsAux
    split
    · rfl
    · exact digitsAux_fuel fuel fuel1 (n / 10) _ (by omega) (by omega)

theorem escapeAux_fuel : ∀ (fuel fuel1 : Nat) (s : Bytes), s.length < fuel → s.length < fuel1 →
    escapeAux fuel s = escapeAux fuel1 s
  | 0, _, _, h, _ => by omega
  | _ + 1, 0, _, _, h => by omega
  | _ + 1, _ + 1, [], _, _ => by simp [escapeAux]
  | fuel + 1, fuel1 + 1, c :: rest, h, h1 => by
    simp only [List.length_cons] at h h1
    have ih : ∀ k : Nat, escapeAux fuel (rest.drop k) = escapeAux fuel1 (rest.drop k) :=
      fun k => escapeAux_fuel fuel fuel1 _ (by simp only [List.length_drop]; omega)
        (by simp only [List.length_drop]; omega)
    have ih0 : escapeAux fuel rest = escapeAux fuel1 rest := by simpa using ih 0
    unfold escapeAux
    simp only [ih, ih0]

/-! ## Array.Sort -/

theorem strLe_iff (s t : Bytes) : strLe s t = true ↔ strLess t s = false := by
  unfold strLe
  constructor
  · intro h
    rcases Bool.or_eq_true _ _ ▸ h with h | h
    · exact strLess_asymm _ _ h
    · have : s = t := by simpa using h
      subst this; exact strLess_irrefl s
  · intro h
    cases hst : strLess s t with
    | true => simp
    | false => simp [strLess_connected s t hst h]

theorem strictWeak_key {α : Type} (key : α → Bytes) :
    StrictWeak (fun x y => strLess (key x) (key y)) where
  asymm := fun a b h => strLess_asymm _ _ h
  negTrans := fun a b c hab hbc => by
    cases hac : strLess (key a) (key c) with
    | false => rfl
    | true =>
      exfalso
      cases hba : strLess (key b) (key a) with
      | false =>
        have := strLess_connected _ _ hab hba
        rw [← this, hac] at hbc
        exact absurd hbc (by simp)
      | true =>
        have := strLess_trans _ _ _ hba hac
        rw [this] at hbc
        exact absurd hbc (by simp)

theorem keysAscending_of_pairwise (J : Json) : ∀ l : List Any,
    l.Pairwise (fun a b => strLess (sortKey J b) (sortKey J a) = false) →
      keysAscending J l = true
  | [], _ => rfl
  | [_], _ => rfl
  | x :: y :: rest, h => by
    rw [List.pairwise_cons] at h
    simp only [keysAscending, Bool.and_eq_true]
    exact ⟨(strLe_iff _ _).2 (h.1 y (by simp)), keysAscending_of_pairwise J (y :: rest) h.2⟩

theorem Array.Sort_perm (J : Json) (a : List Any) : (Array.Sort J a).Perm a :=
  SliceStable_perm _ a

theorem Array.Sort_pairwise (J : Json) (a : List Any) :
    (Array.Sort J a).Pairwise (fun x y => strLess (sortKey J y) (sortKey J x) = false) :=
  SliceStable_pairwise (strictWeak_key (sortKey J)) a

theorem Array.Sort_ascending (J : Json) (a : List Any) :
    keysAscending J (Array.Sort J a) = true :=
  keysAscending_of_pairwise J _ (Array.Sort_pairwise J a)

/-! ## The loops of decode and MarshalJSON -/

theorem marshalElems_eq_map (J : Json) : ∀ l : List Any,
    marshalElems J l = l.map (Any.MarshalJSON J)
  | [] => by simp [marshalElems]
  | x :: xs => by simp [marshalElems, marshalElems_eq_map J xs]

theorem marshalFields_eq_map (J : Json) : ∀ l : List (Bytes × Any),
    marshalFields J l = l.map (fun p => (p.1, Any.MarshalJSON J p.2))
  | [] => by simp [marshalFields]
  | (k, x) :: rest => by simp [marshalFields, marshalFields_eq_map J rest]

theorem decodeElems_eq_map (J : Json) (needSort : Bool) : ∀ (l : List Generic) (a : List Any),
    decodeElems J l needSort a = a ++ l.map (fun x => decode J x needSort)
  | [], a => by simp [decodeElems]
  | x :: rest, a => by
    simp [decodeElems, decodeElems_eq_map J needSort rest, Array.Append]

theorem canonicalElems_iff (J : Json) : ∀ l : List Any,
    canonicalElems J l = true ↔ ∀ x ∈ l, Canonical J x = true
  | [] => by simp [canonicalElems]
  | x :: xs => by simp [canonicalElems, canonicalElems_iff J xs]

theorem canonicalFields_iff (J : Json) : ∀ l : List (Bytes × Any),
    canonicalFields J l = true ↔ ∀ p ∈ l, Canonical J p.2 = true
  | [] => by simp [canonicalFields]
  | (k, x) :: rest => by simp [canonicalFields, canonicalFields_iff J rest]

theorem mem_mapSet {β : Type} (key : Bytes) (v : β) : ∀ (m : List (Bytes × β)) (p : Bytes × β),
    p ∈ mapSet key v m → p = (key, v) ∨ p ∈ m
  | [], p, h => by simpa [mapSet] using h
  | (k, w) :: rest, p, h => by
    unfold mapSet at h
    split at h
    · rename_i hk
      rcases List.mem_cons.1 h with h | h
      · left; rw [h, hk]
      · right; exact List.mem_cons_of_mem _ h
    · rcases List.mem_cons.1 h with h | h
      · right; rw [h]; exact List.mem_cons_self _ _
      · rcases mem_mapSet key v rest p h with h | h
        · left; exact h
        · right; exact List.mem_cons_of_mem _ h

mutual
theorem decode_canonical (J : Json) : ∀ v : Generic, Canonical J (decode J v true) = true
  | .map entries => by
    simp only [decode, Canonical]
    exact (canonicalFields_iff J _).2 (decodeEntries_canonical J entries [] (by simp))
  | .seq elems => by
    simp only [decode, Canonical, if_true, Bool.and_eq_true]
    refine ⟨Array.Sort_ascending J _, (canonicalElems_iff J _).2 ?_⟩
    intro x hx
    exact decodeElems_canonical J elems [] (by simp) x ((Array.Sort_perm J _).mem_iff.1 hx)
  | .bool _ => rfl
  | .string _ => rfl
  | .int64 _ => rfl
  | .uint64 _ => rfl
  | .float64 _ => rfl
  | .nil => rfl
  | .other => rfl
theorem decodeElems_canonical (J : Json) : ∀ (l : List Generic) (a : List Any),
    (∀ x ∈ a, Canonical J x = true) → ∀ x ∈ decodeElems J l true a, Canonical J x = true
  | [], a, h => by simpa [decodeElems] using h
  | v :: rest, a, h => by
    rw [decodeElems]
    apply decodeElems_canonical J rest
    intro x hx
    rcases List.mem_append.1 hx with hx | hx
    · exact h x hx
    · rw [List.mem_singleton.1 hx]; exact decode_canonical J v
theorem decodeEntries_canonical (J : Json) : ∀ (l : List (Bytes × Generic))
    (a : List (Bytes × Any)),
    (∀ p ∈ a, Canonical J p.2 = true) → ∀ p ∈ decodeEntries J l true a, Canonical J p.2 = true
  | [], a, h => by simpa [decodeEntries] using h
  | (k, v) :: rest, a, h => by
    rw [decodeEntries]
    apply decodeEntries_canonical J rest
    intro p hp
    rcases mem_mapSet _ _ _ _ hp with hp | hp
    · rw [hp]; exact decode_canonical J v
    · exact h p hp
end

/-! ## Encoding a sorted slice -/

theorem allSome_eq_none {β : Type} : ∀ l : List (Option β), none ∈ l → allSome l = none
  | [], h => by simp at h
  | none :: _, _ => rfl
  | some b :: rest, h => by
    have : none ∈ rest := by simpa using h
    simp [allSome, allSome_eq_none rest this]

theorem arrayText_eq_none : ∀ l : List (Option Bytes), none ∈ l → arrayText l = none
  | [], h => by simp at h
  | p :: ps, h => by simp [arrayText, allSome_eq_none (p :: ps) h]

theorem map_marshal_of_no_none (J : Json) : ∀ l : List Any,
    none ∉ l.map (Any.MarshalJSON J) → l.map (Any.MarshalJSON J) = (l.map (sortKey J)).map some
  | [], _ => rfl
  | x :: xs, h => by
    simp only [List.map_cons, List.mem_cons, not_or] at h
    simp only [List.map_cons, map_marshal_of_no_none J xs h.2, List.cons.injEq, and_true]
    unfold sortKey
    cases hx : Any.MarshalJSON J x with
    | none => exact absurd hx.symm h.1
    | some b => rfl

theorem sortKey_eq_getD (J : Json) (l : List Any) :
    l.map (sortKey J) = (l.map (Any.MarshalJSON J)).map (fun o => o.getD []) := by
  simp [sortKey, Function.comp_def]

theorem arrayText_sort_congr (J : Json) (a b : List Any)
    (h : (a.map (Any.MarshalJSON J)).Perm (b.map (Any.MarshalJSON J))) :
    arrayText ((Array.Sort J a).map (Any.MarshalJSON J)) =
      arrayText ((Array.Sort J b).map (Any.MarshalJSON J)) := by
  have hA := (Array.Sort_perm J a).map (Any.MarshalJSON J)
  have hB := (Array.Sort_perm J b).map (Any.MarshalJSON J)
  have hAB := (hA.trans h).trans hB.symm
  by_cases hn : none ∈ (Array.Sort J a).map (Any.MarshalJSON J)
  · rw [arrayText_eq_none _ hn, arrayText_eq_none _ (hAB.mem_iff.1 hn)]
  · have hn' : none ∉ (Array.Sort J b).map (Any.MarshalJSON J) := fun h' => hn (hAB.mem_iff.2 h')
    rw [map_marshal_of_no_none J _ hn, map_marshal_of_no_none J _ hn']
    have hk : ((Array.Sort J a).map (sortKey J)).Perm ((Array.Sort J b).map (sortKey J)) := by
      rw [sortKey_eq_getD, sortKey_eq_getD]
      exact hAB.map _
    haveI : IsAntisymm Bytes (fun s t => strLess t s = false) :=
      ⟨fun s t h1 h2 => strLess_connected s t h2 h1⟩
    have sA : ((Array.Sort J a).map (sortKey J)).Sorted (fun s t => strLess t s = false) :=
      List.pairwise_map.2 (Array.Sort_pairwise J a)
    have sB : ((Array.Sort J b).map (sortKey J)).Sorted (fun s t => strLess t s = false) :=
      List.pairwise_map.2 (Array.Sort_pairwise J b)
    rw [List.eq_of_perm_of_sorted hk sA sB]

theorem marshal_Array (J : Json) (l : List Any) :
    Any.MarshalJSON J (.Array l) = arrayText (l.map (Any.MarshalJSON J)) := by
  rw [Any.MarshalJSON, marshalElems_eq_map]

theorem marshal_Object (J : Json) (m : List (Bytes × Any)) :
    Any.MarshalJSON J (.Object m) =
      objectText J (m.map (fun p => (p.1, Any.MarshalJSON J p.2))) := by
  rw [Any.MarshalJSON, marshalFields_eq_map]

theorem map_mapSet {β γ : Type} (f : β → γ) (key : Bytes) (v : β) :
    ∀ m : List (Bytes × β),
      (mapSet key v m).map (fun p => (p.1, f p.2)) = mapSet key (f v) (m.map fun p => (p.1, f p.2))
  | [] => rfl
  | (k, w) :: rest => by
    by_cases hk : k = key
    · simp [mapSet, hk]
    · simp [mapSet, hk, map_mapSet f key v rest]

mutual
theorem reorder_marshal (J : Json) : ∀ {v w : Generic}, Reorder v w →
    Any.MarshalJSON J (decode J v true) = Any.MarshalJSON J (decode J w true)
  | _, _, .same _ => rfl
  | _, _, .seq h hp => by
    simp only [decode, if_true, marshal_Array, decodeElems_eq_map, List.nil_append]
    apply arrayText_sort_congr
    have h1 := reorderElems_marshal J h
    have h2 := hp.map (fun x => Any.MarshalJSON J (decode J x true))
    simp only [List.map_map, Function.comp_def]
    rw [h1]
    exact h2
  | _, _, .map h => by
    simp only [decode, marshal_Object]
    rw [reorderEntries_marshal J h [] [] rfl]
theorem reorderElems_marshal (J : Json) : ∀ {xs ys : List Generic}, ReorderElems xs ys →
    xs.map (fun x => Any.MarshalJSON J (decode J x true)) =
      ys.map (fun x => Any.MarshalJSON J (decode J x true))
  | _, _, .nil => rfl
  | _, _, .cons h hs => by
    simp only [List.map_cons, reorder_marshal J h, reorderElems_marshal J hs]
theorem reorderEntries_marshal (J : Json) : ∀ {es fs : List (Bytes × Generic)},
    ReorderEntries es fs → ∀ (a b : List (Bytes × Any)),
    a.map (fun p => (p.1, Any.MarshalJSON J p.2)) = b.map (fun p => (p.1, Any.MarshalJSON J p.2)) →
    (decodeEntries J es true a).map (fun p => (p.1, Any.MarshalJSON J p.2)) =
      (decodeEntries J fs true b).map (fun p => (p.1, Any.MarshalJSON J p.2))
  | _, _, .nil, a, b, hab => by simpa [decodeEntries] using hab
  | _, _, .cons h hs, a, b, hab => by
    rw [decodeEntries, decodeEntries]
    apply reorderEntries_marshal J hs
    rw [map_mapSet (Any.MarshalJSON J), map_mapSet (Any.MarshalJSON J), hab,
      reorder_marshal J h]
end

/-! ## The reference parser yields no integer kinds -/

theorem parseElems_isInteger : ∀ (fuel depth : Nat) (input : Bytes) (acc : List Generic)
    (err : Bool) (r : Generic × Bool × Bytes),
    parseElems fuel depth input acc err = some r → r.1.isInteger = false
  | 0, _, _, _, _, _, h => by simp [parseElems] at h
  | fuel + 1, depth, input, acc, err, r, h => by
    rw [parseElems] at h
    repeat' split at h
    all_goals first
      | exact parseElems_isInteger fuel _ _ _ _ _ h
      | (cases h <;> rfl)

theorem parseMembers_isInteger : ∀ (fuel depth : Nat) (input : Bytes)
    (acc : List (Bytes × Generic)) (err : Bool) (r : Generic × Bool × Bytes),
    parseMembers fuel depth input acc err = some r → r.1.isInteger = false
  | 0, _, _, _, _, _, h => by simp [parseMembers] at h
  | _ + 1, _, [], _, _, _, h => by simp [parseMembers] at h
  | fuel + 1, depth, c :: rest, acc, err, r, h => by
    rw [parseMembers] at h
    repeat' split at h
    all_goals first
      | exact parseMembers_isInteger fuel _ _ _ _ _ h
      | (cases h <;> rfl)

theorem parseValue_isInteger (fuel depth : Nat) (input : Bytes) (r : Generic × Bool × Bytes)
    (h : parseValue fuel depth input = some r) : r.1.isInteger = false := by
  cases fuel with
  | zero => simp [parseValue] at h
  | succ fuel =>
    cases input with
    | nil => simp [parseValue] at h
    | cons c rest =>
      rw [parseValue] at h
      repeat' split at h
      all_goals first
        | exact parseMembers_isInteger _ _ _ _ _ _ h
        | exact parseElems_isInteger _ _ _ _ _ _ h
        | (cases h <;> rfl)

theorem jsonUnmarshal_isInteger (data : Bytes) (v : Generic)
    (h : jsonUnmarshal data = .ok v) : v.isInteger = false := by
  unfold jsonUnmarshal at h
  split at h
  · simp at h
  · rename_i v' e rest hp
    split at h
    · simp at h
    · split at h
      · simp at h
      · simp only [Except.ok.injEq] at h
        rw [← h]
        exact parseValue_isInteger _ _ _ _ hp

theorem decode_eq_NumberInt (J : Json) (v : Generic) (flag : Bool) (i : Int)
    (h : decode J v flag = .NumberInt i) : v.isInteger = true := by
  cases v <;> simp [decode] at h
  rfl

theorem decode_eq_NumberUint (J : Json) (v : Generic) (flag : Bool) (u : Nat)
    (h : decode J v flag = .NumberUint u) : v.isInteger = true := by
  cases v <;> simp [decode] at h
  rfl

/-! ## The fuel of the reference parser -/

theorem skipSpace_length_le : ∀ l : Bytes, (skipSpace l).length ≤ l.length
  | [] => by simp [skipSpace]
  | c :: rest => by
    unfold skipSpace
    split
    · have := skipSpace_length_le rest
      simp only [List.length_cons]; omega
    · exact Nat.le_refl _

theorem skipSpace_tail_length_le (l : Bytes) : (skipSpace l).tail.length ≤ l.length := by
  have := skipSpace_length_le l
  simp only [List.length_tail]; omega

theorem skipSpace_tail_length_lt (l : Bytes) (c : Nat) (h : (skipSpace l).head? = some c) :
    (skipSpace l).tail.length < l.length := by
  have := skipSpace_length_le l
  cases hs : skipSpace l with
  | nil => rw [hs] at h; simp at h
  | cons a t => rw [hs] at this; simp only [List.length_cons] at this; simp only [List.tail_cons]; omega

theorem takeDigits_length_le : ∀ l : Bytes, (takeDigits l).2.length ≤ l.length
  | [] => by simp [takeDigits]
  | c :: rest => by
    unfold takeDigits
    split
    · have := takeDigits_length_le rest
      simp only [List.length_cons]; omega
    · exact Nat.le_refl _

theorem unquote_length_lt : ∀ (fuel : Nat) (input out : Bytes) (r : Bytes × Bytes),
    unquote fuel input out = some r → r.2.length < input.length
  | 0, _, _, _, h => by simp [unquote] at h
  | _ + 1, [], _, _, h => by simp [unquote] at h
  | fuel + 1, c :: rest, out, r, h => by
    unfold unquote at h
    repeat' split at h
    all_goals first
      | (cases h <;> simp)
      | exact Nat.lt_of_lt_of_le (unquote_length_lt fuel _ _ _ h)
          (by simp only [List.length_drop, List.length_cons]; omega)

theorem unquote_fuel : ∀ (fuel fuel1 : Nat) (input out : Bytes),
    input.length < fuel → input.length < fuel1 →
      unquote fuel input out = unquote fuel1 input out
  | 0, _, _, _, h, _ => by omega
  | _ + 1, 0, _, _, _, h => by omega
  | _ + 1, _ + 1, [], _, _, _ => by simp [unquote]
  | fuel + 1, fuel1 + 1, c :: rest, out, h, h1 => by
    simp only [List.length_cons] at h h1
    have ih : ∀ (k : Nat) (o : Bytes),
        unquote fuel (rest.drop k) o = unquote fuel1 (rest.drop k) o := fun k o =>
      unquote_fuel fuel fuel1 _ _ (by simp only [List.length_drop]; omega)
        (by simp only [List.length_drop]; omega)
    have ih0 : ∀ o : Bytes, unquote fuel rest o = unquote fuel1 rest o := fun o => by
      simpa using ih 0 o
    unfold unquote
    split
    · rfl
    · split
      · cases rest with
        | nil => rfl
        | cons e rest1 =>
          simp only
          split
          · split
            · rfl
            · exact ih _ _
          · split
            · rfl
            · simpa using ih 1 _
      · split
        · rfl
        · split
          · exact ih0 _
          · split
            · exact ih0 _
            · exact ih _ _

theorem scanInt_length_lt (input : Bytes) (r : Bytes × Bytes) (h : scanInt input = some r) :
    r.2.length < input.length := by
  cases input with
  | nil => simp [scanInt] at h
  | cons c rest =>
    simp only [scanInt] at h
    have := takeDigits_length_le rest
    repeat' split at h
    all_goals (cases h <;> (simp only [List.length_cons]; omega))

theorem scanFrac_length_le (input : Bytes) (r : Bytes × Bytes) (h : scanFrac input = some r) :
    r.2.length ≤ input.length := by
  unfold scanFrac at h
  split at h
  · rename_i rest
    have := takeDigits_length_le rest
    split at h
    · simp at h
    · cases h; simp only [List.length_cons]; omega
  · cases h; exact Nat.le_refl _

theorem scanExpDigits_length_le (neg : Bool) (input : Bytes) (r : Int × Bytes)
    (h : scanExpDigits neg input = some r) : r.2.length ≤ input.length := by
  unfold scanExpDigits at h
  have := takeDigits_length_le input
  split at h
  · simp at h
  · cases h; exact this

theorem scanExp_length_le (input : Bytes) (r : Int × Bytes) (h : scanExp input = some r) :
    r.2.length ≤ input.length := by
  unfold scanExp at h
  split at h
  · cases h; exact Nat.le_refl _
  · split at h
    · split at h
      · have := scanExpDigits_length_le _ _ _ h
        simp only [List.length_cons]; omega
      · have := scanExpDigits_length_le _ _ _ h
        simp only [List.length_cons]; omega
      · have := scanExpDigits_length_le _ _ _ h
        simp only [List.length_cons]; omega
    · cases h; exact Nat.le_refl _

theorem scanNumberAbs_length_lt (neg : Bool) (input : Bytes) (r : Option Float64 × Bytes)
    (h : scanNumberAbs neg input = some r) : r.2.length < input.length := by
  unfold scanNumberAbs at h
  split at h
  · simp at h
  · rename_i ds r1 h1
    have := scanInt_length_lt _ _ h1
    split at h
    · simp at h
    · rename_i fs r2 h2
      have := scanFrac_length_le _ _ h2
      split at h
      · simp at h
      · rename_i e r3 h3
        have := scanExp_length_le _ _ h3
        cases h
        simp only at *
        omega

theorem scanNumber_length_lt (input : Bytes) (r : Option Float64 × Bytes)
    (h : scanNumber input = some r) : r.2.length < input.length := by
  unfold scanNumber at h
  split at h
  · have := scanNumberAbs_length_lt _ _ _ h
    simp only [List.length_cons]; omega
  · exact scanNumberAbs_length_lt _ _ _ h

mutual
theorem parseValue_length_lt : ∀ (fuel depth : Nat) (input : Bytes)
    (r : Generic × Bool × Bytes),
    parseValue fuel depth input = some r → r.2.2.length < input.length
  | 0, _, _, _, h => by simp [parseValue] at h
  | _ + 1, _, [], _, h => by simp [parseValue] at h
  | fuel + 1, depth, c :: rest, r, h => by
    rw [parseValue] at h
    have hs := skipSpace_length_le rest
    have ht := skipSpace_tail_length_le rest
    simp only [List.length_cons]
    split at h
    · split at h
      · simp at h
      · split at h
        · cases h; simp only; omega
        · have := parseMembers_length_lt fuel _ _ _ _ _ h
          omega
    · split at h
      · split at h
        · simp at h
        · split at h
          · cases h; simp only; omega
          · have := parseElems_length_lt fuel _ _ _ _ _ h
            omega
      · split at h
        · split at h
          · simp at h
          · rename_i s rest1 hq
            have := unquote_length_lt _ _ _ _ hq
            cases h; simp only at *; omega
        · split at h
          · split at h
            · cases h; simp only [List.length_drop]; omega
            · simp at h
          · split at h
            · split at h
              · cases h; simp only [List.length_drop]; omega
              · simp at h
            · split at h
              · split at h
                · cases h; simp only [List.length_drop]; omega
                · simp at h
              · split at h
                · simp at h
                · rename_i f rest1 hn
                  have := scanNumber_length_lt _ _ hn
                  cases h; simp only [List.length_cons] at *; omega
                · rename_i rest1 hn
                  have := scanNumber_length_lt _ _ hn
                  cases h; simp only [List.length_cons] at *; omega
theorem parseElems_length_lt : ∀ (fuel depth : Nat) (input : Bytes) (acc : List Generic)
    (err : Bool) (r : Generic × Bool × Bytes),
    parseElems fuel depth input acc err = some r → r.2.2.length < input.length
  | 0, _, _, _, _, _, h => by simp [parseElems] at h
  | fuel + 1, depth, input, acc, err, r, h => by
    rw [parseElems] at h
    split at h
    · simp at h
    · rename_i v e rest hv
      have h1 := parseValue_length_lt fuel _ _ _ hv
      have ht := skipSpace_tail_length_le rest
      simp only at h1
      split at h
      · have := parseElems_length_lt fuel _ _ _ _ _ h
        have := skipSpace_length_le (skipSpace rest).tail
        omega
      · split at h
        · cases h; simp only; omega
        · simp at h
theorem parseMembers_length_lt : ∀ (fuel depth : Nat) (input : Bytes)
    (acc : List (Bytes × Generic)) (err : Bool) (r : Generic × Bool × Bytes),
    parseMembers fuel depth input acc err = some r → r.2.2.length < input.length
  | 0, _, _, _, _, _, h => by simp [parseMembers] at h
  | _ + 1, _, [], _, _, _, h => by simp [parseMembers] at h
  | fuel + 1, depth, c :: rest, acc, err, r, h => by
    rw [parseMembers] at h
    simp only [List.length_cons]
    split at h
    · split at h
      · simp at h
      · rename_i key rest1 hq
        have h1 := unquote_length_lt _ _ _ _ hq
        simp only at h1
        split at h
        · split at h
          · simp at h
          · rename_i v e rest3 hv
            have h3 := parseValue_length_lt fuel _ _ _ hv
            have := skipSpace_length_le (skipSpace rest1).tail
            have := skipSpace_tail_length_le rest1
            have := skipSpace_tail_length_le rest3
            simp only at h3
            split at h
            · have := parseMembers_length_lt fuel _ _ _ _ _ h
              have := skipSpace_length_le (skipSpace rest3).tail
              omega
            · split at h
              · cases h; simp only; omega
              · simp at h
        · simp at h
    · simp at h
end

mutual
theorem parseValue_fuel : ∀ (fuel fuel1 depth : Nat) (input : Bytes),
    2 * input.length + 1 ≤ fuel → 2 * input.length + 1 ≤ fuel1 →
      parseValue fuel depth input = parseValue fuel1 depth input
  | 0, _, _, _, h, _ => by omega
  | _ + 1, 0, _, _, _, h => by omega
  | _ + 1, _ + 1, _, [], _, _ => by simp [parseValue]
  | fuel + 1, fuel1 + 1, depth, c :: rest, h, h1 => by
    simp only [List.length_cons] at h h1
    have hs := skipSpace_length_le rest
    rw [parseValue, parseValue]
    rw [parseMembers_fuel fuel fuel1 (depth + 1) (skipSpace rest) [] false (by omega) (by omega),
      parseElems_fuel fuel fuel1 (depth + 1) (skipSpace rest) [] false (by omega) (by omega),
      unquote_fuel fuel fuel1 rest [] (by omega) (by omega)]
theorem parseElems_fuel : ∀ (fuel fuel1 depth : Nat) (input : Bytes) (acc : List Generic)
    (err : Bool), 2 * input.length + 2 ≤ fuel → 2 * input.length + 2 ≤ fuel1 →
      parseElems fuel depth input acc err = parseElems fuel1 depth input acc err
  | 0, _, _, _, _, _, h, _ => by omega
  | _ + 1, 0, _, _, _, _, _, h => by omega
  | fuel + 1, fuel1 + 1, depth, input, acc, err, h, h1 => by
    rw [parseElems, parseElems]
    rw [parseValue_fuel fuel fuel1 depth input (by omega) (by omega)]
    cases hv : parseValue fuel1 depth input with
    | none => rfl
    | some r =>
      obtain ⟨v, e, rest⟩ := r
      have h2 := parseValue_length_lt _ _ _ _ hv
      have := skipSpace_tail_length_le rest
      have := skipSpace_length_le (skipSpace rest).tail
      simp only at h2 ⊢
      rw [parseElems_fuel fuel fuel1 depth (skipSpace (skipSpace rest).tail) (acc ++ [v])
        (err || e) (by omega) (by omega)]
theorem parseMembers_fuel : ∀ (fuel fuel1 depth : Nat) (input : Bytes)
    (acc : List (Bytes × Generic)) (err : Bool),
    2 * input.length + 2 ≤ fuel → 2 * input.length + 2 ≤ fuel1 →
      parseMembers fuel depth input acc err = parseMembers fuel1 depth input acc err
  | 0, _, _, _, _, _, h, _ => by omega
  | _ + 1, 0, _, _, _, _, _, h => by omega
  | _ + 1, _ + 1, _, [], _, _, _, _ => by simp [parseMembers]
  | fuel + 1, fuel1 + 1, depth, c :: rest, acc, err, h, h1 => by
    simp only [List.length_cons] at h h1
    rw [parseMembers, parseMembers]
    rw [unquote_fuel fuel fuel1 rest [] (by omega) (by omega)]
    split
    · cases hq : unquote fuel1 rest [] with
      | none => rfl
      | some kr =>
        obtain ⟨key, rest1⟩ := kr
        have h2 := unquote_length_lt _ _ _ _ hq
        have := skipSpace_tail_length_le rest1
        have := skipSpace_length_le (skipSpace rest1).tail
        simp only at h2 ⊢
        rw [parseValue_fuel fuel fuel1 depth (skipSpace (skipSpace rest1).tail)
          (by omega) (by omega)]
        split
        · cases hv : parseValue fuel1 depth (skipSpace (skipSpace rest1).tail) with
          | none => rfl
          | some r =>
            obtain ⟨v, e, rest3⟩ := r
            have h3 := parseValue_length_lt _ _ _ _ hv
            have := skipSpace_tail_length_le rest3
            have := skipSpace_length_le (skipSpace rest3).tail
            simp only at h3 ⊢
            rw [parseMembers_fuel fuel fuel1 depth (skipSpace (skipSpace rest3).tail)
              (mapSet key v acc) (err || e) (by omega) (by omega)]
        · rfl
    · rfl
end

/-- The fuel `jsonUnmarshal` gives the parser is enough: with any more fuel
the parser returns the same result. -/
theorem jsonUnmarshal_fuel (data : Bytes) (fuel : Nat) (h : 2 * data.length + 2 ≤ fuel) :
    parseValue fuel 0 (skipSpace data) = parseValue (2 * data.length + 2) 0 (skipSpace data) := by
  have := skipSpace_length_le data
  exact parseValue_fuel _ _ _ _ (by omega) (by omega)

/-! ## The properties of the specification -/

set_option maxRecDepth 1000000
set_option exponentiation.threshold 2000

/-- C1 (the code differs): `json.Unmarshal` stores every JSON number in an
`interface{}` as a `float64`, so `Unmarshal` never returns a `NumberInt` or a
`NumberUint`: the documents `42`, `-1` and `18446744073709551615` give
`NumberFloat(42)`, `NumberFloat(-1)` and `NumberFloat(1.8446744073709552e19)`
(the float64 two to the 64), and `"Width": 800` gives `NumberFloat(800)`. -/
theorem Unmarshal_integer_numeral_is_NumberFloat :
    (∀ (data : Bytes) (i : Int), (Unmarshal goJson data).1 ≠ some (.NumberInt i)) ∧
    (∀ (data : Bytes) (u : Nat), (Unmarshal goJson data).1 ≠ some (.NumberUint u)) ∧
    Unmarshal goJson (bytes "42") =
      (some (.NumberFloat ⟨false, 1028, 1407374883553280⟩), none) ∧
    Unmarshal goJson (bytes "-1") = (some (.NumberFloat ⟨true, 1023, 0⟩), none) ∧
    Unmarshal goJson (bytes "18446744073709551615") =
      (some (.NumberFloat ⟨false, 1087, 0⟩), none) ∧
    Unmarshal goJson (bytes "\x7b\x22Width\x22: 800\x7d") =
      (some (.Object [(bytes "Width", .NumberFloat ⟨false, 1032, 2533274790395904⟩)]), none) := by
  refine ⟨?_, ?_, rfl, rfl, rfl, rfl⟩
  · intro data i h
    unfold Unmarshal at h
    cases hp : goJson.Unmarshal data with
    | error e => rw [hp] at h; simp at h
    | ok v =>
      rw [hp] at h
      simp only [Option.some.injEq] at h
      have h1 := decode_eq_NumberInt _ _ _ _ h
      have h2 := jsonUnmarshal_isInteger data v hp
      rw [h1] at h2
      exact absurd h2 (by simp)
  · intro data u h
    unfold Unmarshal at h
    cases hp : goJson.Unmarshal data with
    | error e => rw [hp] at h; simp at h
    | ok v =>
      rw [hp] at h
      simp only [Option.some.injEq] at h
      have h1 := decode_eq_NumberUint _ _ _ _ h
      have h2 := jsonUnmarshal_isInteger data v hp
      rw [h1] at h2
      exact absurd h2 (by simp)

/-- C2: the scalar cases of `decode`, for either value of the flag: a bool
gives `Bool`, a string `String`, an int64 `NumberInt`, a uint64 `NumberUint`,
a float64 `NumberFloat`, each with the same payload; nil and a value of any
other shape give `Null`. `decode` is total: no case raises an error. -/
theorem decode_scalar_table (J : Json) (flag : Bool) :
    (∀ b : Bool, decode J (.bool b) flag = .Bool b) ∧
    (∀ s : Bytes, decode J (.string s) flag = .String s) ∧
    (∀ i : Int, decode J (.int64 i) flag = .NumberInt i) ∧
    (∀ u : Nat, decode J (.uint64 u) flag = .NumberUint u) ∧
    (∀ f : Float64, decode J (.float64 f) flag = .NumberFloat f) ∧
    decode J .nil flag = .Null ∧
    decode J .other flag = .Null :=
  ⟨fun _ => rfl, fun _ => rfl, fun _ => rfl, fun _ => rfl, fun _ => rfl, rfl, rfl⟩

/-- C3: decoding is all-or-nothing. When the parser rejects the input, both
`Unmarshal` and `UnmarshalWithSort` return a nil tree with that same error;
when it accepts, they return `decode(v, false)` and `decode(v, true)` with a
nil error. Each returns an error exactly when the parser does, a nil tree
exactly when it returns an error, and the two fail on the same inputs. -/
theorem Unmarshal_all_or_nothing (J : Json) (data : Bytes) :
    (∀ err, J.Unmarshal data = .error err →
      Unmarshal J data = (none, some err) ∧ UnmarshalWithSort J data = (none, some err)) ∧
    (∀ v, J.Unmarshal data = .ok v →
      Unmarshal J data = (some (decode J v false), none) ∧
      UnmarshalWithSort J data = (some (decode J v true), none)) ∧
    ((Unmarshal J data).2 ≠ none ↔ ∃ err, J.Unmarshal data = .error err) ∧
    ((Unmarshal J data).1 = none ↔ (Unmarshal J data).2 ≠ none) ∧
    ((UnmarshalWithSort J data).1 = none ↔ (UnmarshalWithSort J data).2 ≠ none) ∧
    ((Unmarshal J data).2 = (UnmarshalWithSort J data).2) := by
  unfold Unmarshal UnmarshalWithSort
  cases J.Unmarshal data with
  | error e => simp
  | ok v => simp

/-- C3 at the input `not json`: the parser rejects it, and both entry points
return no tree and the syntax error. -/
theorem Unmarshal_all_or_nothing_witness :
    goJson.Unmarshal (bytes "not json") = .error .SyntaxError ∧
    Unmarshal goJson (bytes "not json") = (none, some .SyntaxError) ∧
    UnmarshalWithSort goJson (bytes "not json") = (none, some .SyntaxError) :=
  ⟨rfl, (Unmarshal_all_or_nothing goJson (bytes "not json")).1 .SyntaxError rfl⟩

/-- C4: `Array.Sort` sorts by serialized form. The sorted slice is a
permutation of the slice before, of the same length, and the string `Sort`
compares for each element (its JSON encoding whenever `MarshalJSON`
succeeds) is less than or equal to that of the next element, byte-wise. The
document `[3,1,2]` decodes with `UnmarshalWithSort` to the elements 1, 2, 3
in that order. -/
theorem Array_Sort_sorted_permutation (J : Json) (a : List Any) :
    (Array.Sort J a).Perm a ∧
    (Array.Sort J a).length = a.length ∧
    List.Chain' (fun x y => strLe (sortKey J x) (sortKey J y) = true) (Array.Sort J a) ∧
    (∀ x : Any, Any.MarshalJSON J x = none ∨ Any.MarshalJSON J x = some (sortKey J x)) ∧
    UnmarshalWithSort goJson (bytes "[3,1,2]") =
      (some (.Array [.NumberFloat ⟨false, 1023, 0⟩, .NumberFloat ⟨false, 1024, 0⟩,
        .NumberFloat ⟨false, 1024, 2251799813685248⟩]), none) ∧
    [Any.NumberFloat ⟨false, 1023, 0⟩, .NumberFloat ⟨false, 1024, 0⟩,
        .NumberFloat ⟨false, 1024, 2251799813685248⟩].map (Any.MarshalJSON goJson) =
      [some (bytes "1"), some (bytes "2"), some (bytes "3")] := by
  refine ⟨Array.Sort_perm J a, (Array.Sort_perm J a).length_eq, ?_, ?_, rfl, rfl⟩
  · refine List.Pairwise.chain' ((Array.Sort_pairwise J a).imp ?_)
    intro x y h
    exact (strLe_iff _ _).2 h
  · intro x
    unfold sortKey
    cases Any.MarshalJSON J x with
    | none => exact Or.inl rfl
    | some b => exact Or.inr rfl

/-- C5: order-independence. If the slices `a` and `b` are permutations of
each other, the sorted `a` and the sorted `b` have the same `MarshalJSON`
result, byte for byte. -/
theorem Array_Sort_MarshalJSON_perm (J : Json) (a b : List Any) (h : a.Perm b) :
    Any.MarshalJSON J (.Array (Array.Sort J a)) = Any.MarshalJSON J (.Array (Array.Sort J b)) := by
  rw [marshal_Array, marshal_Array]
  exact arrayText_sort_congr J a b (h.map _)

/-- C5 at the slices `[2, NumberInt(1), NumberUint(1)]` and
`[NumberUint(1), 2, NumberInt(1)]`: sorted, the two differ in the order of
the elements that encode as `1`, and both encode as `[1,1,2]`. -/
theorem Array_Sort_MarshalJSON_perm_witness :
    ([Any.NumberInt 2, .NumberInt 1] ++ [Any.NumberUint 1]).Perm
      (Any.NumberUint 1 :: [Any.NumberInt 2, .NumberInt 1]) ∧
    Any.MarshalJSON goJson
      (.Array (Array.Sort goJson ([Any.NumberInt 2, .NumberInt 1] ++ [Any.NumberUint 1]))) =
    Any.MarshalJSON goJson
      (.Array (Array.Sort goJson (Any.NumberUint 1 :: [Any.NumberInt 2, .NumberInt 1]))) :=
  ⟨List.perm_append_singleton _ _,
    Array_Sort_MarshalJSON_perm goJson _ _ (List.perm_append_singleton _ _)⟩

/-- C6: idempotence. Sorting a sorted slice again leaves it as it is. -/
theorem Array_Sort_idempotent (J : Json) (a : List Any) :
    Array.Sort J (Array.Sort J a) = Array.Sort J a :=
  SliceStable_idem (strictWeak_key (sortKey J)) a

/-- C7: stability. If `x` and `y` have the same JSON encoding `e` and `x`
precedes `y` in the slice, then `x` precedes `y` in the sorted slice. -/
theorem Array_Sort_stable (J : Json) (a : List Any) (x y : Any) (e : Bytes)
    (hx : Any.MarshalJSON J x = some e) (hy : Any.MarshalJSON J y = some e)
    (h : List.Sublist [x, y] a) : List.Sublist [x, y] (Array.Sort J a) := by
  apply sublist_SliceStable a [x, y] _ h
  simp [sortKey, hx, hy, strLess_irrefl]

/-- C7 at the slice `[2, NumberInt(1), NumberUint(1)]`, whose last two
elements both encode as `1`. -/
theorem Array_Sort_stable_witness :
    List.Sublist [Any.NumberInt 1, .NumberUint 1] [Any.NumberInt 2, .NumberInt 1, .NumberUint 1] ∧
    List.Sublist [Any.NumberInt 1, .NumberUint 1]
      (Array.Sort goJson [Any.NumberInt 2, .NumberInt 1, .NumberUint 1]) :=
  ⟨List.Sublist.cons _ (List.Sublist.refl _),
    Array_Sort_stable goJson _ _ _ [49] rfl rfl (List.Sublist.cons _ (List.Sublist.refl _))⟩

/-- C8: recursive canonicalization. In `decode(v, true)`, every `Array` node
at every depth (inside arrays and as object values) has its elements in
ascending order of the strings `Sort` compares, each the encoding of the
element's own, already sorted, subtree. -/
theorem decode_sorts_every_array (J : Json) (v : Generic) :
    Canonical J (decode J v true) = true :=
  decode_canonical J v

/-- C9: document-level order independence. If `w` is `v` with the elements of
arrays permuted, at any depths, then `decode(v, true)` and `decode(w, true)`
have the same `MarshalJSON` result. -/
theorem decode_MarshalJSON_reorder (J : Json) (v w : Generic) (h : Reorder v w) :
    Any.MarshalJSON J (decode J v true) = Any.MarshalJSON J (decode J w true) :=
  reorder_marshal J h

/-- C9 at the documents `[[2,1],{"k":[4,3]}]` and `[{"k":[3,4]},[1,2]]`. -/
theorem decode_MarshalJSON_reorder_witness :
    Reorder
      (.seq [.seq [.int64 2, .int64 1], .map [([107], .seq [.int64 4, .int64 3])]])
      (.seq [.map [([107], .seq [.int64 3, .int64 4])], .seq [.int64 1, .int64 2]]) ∧
    Any.MarshalJSON goJson (decode goJson
      (.seq [.seq [.int64 2, .int64 1], .map [([107], .seq [.int64 4, .int64 3])]]) true) =
    Any.MarshalJSON goJson (decode goJson
      (.seq [.map [([107], .seq [.int64 3, .int64 4])], .seq [.int64 1, .int64 2]]) true) :=
  have hr : Reorder
      (.seq [.seq [.int64 2, .int64 1], .map [([107], .seq [.int64 4, .int64 3])]])
      (.seq [.map [([107], .seq [.int64 3, .int64 4])], .seq [.int64 1, .int64 2]]) :=
    .seq
      (.cons (.seq (.cons (.same _) (.cons (.same _) .nil)) (List.Perm.swap _ _ _))
        (.cons (.map (.cons (.seq (.cons (.same _) (.cons (.same _) .nil))
          (List.Perm.swap _ _ _)) .nil)) .nil))
      (List.Perm.swap _ _ _)
  ⟨hr, decode_MarshalJSON_reorder goJson _ _ hr⟩

/-- C10 (the code differs): the round trip fails at the document `[]`. It
decodes to an `Array` whose slice is nil, `MarshalJSON` writes a nil slice as
`null`, and `null` decodes to `Null`, not to an `Array`. -/
theorem roundtrip_empty_array :
    Unmarshal goJson (bytes "[]") = (some (.Array []), none) ∧
    Any.MarshalJSON goJson (.Array []) = some (bytes "null") ∧
    Unmarshal goJson (bytes "null") = (some .Null, none) ∧
    Any.Null ≠ Any.Array [] :=
  ⟨rfl, rfl, rfl, fun h => Any.noConfusion h⟩

/-! ## Maps and slices -/

theorem mapSet_of_not_mem {β : Type} (key : Bytes) (v : β) : ∀ m : List (Bytes × β),
    key ∉ m.map Prod.fst → mapSet key v m = m ++ [(key, v)]
  | [], _ => rfl
  | (k, w) :: rest, h => by
    simp only [List.map_cons, List.mem_cons, not_or] at h
    have hk : ¬ k = key := fun e => h.1 e.symm
    simp [mapSet, hk, mapSet_of_not_mem key v rest h.2]

theorem keys_mapSet {β : Type} (key : Bytes) (v : β) : ∀ m : List (Bytes × β),
    (mapSet key v m).map Prod.fst =
      if key ∈ m.map Prod.fst then m.map Prod.fst else m.map Prod.fst ++ [key]
  | [] => by simp [mapSet]
  | (k, w) :: rest => by
    by_cases hk : k = key
    · simp [mapSet, hk]
    · have hk' : ¬ key = k := fun e => hk e.symm
      simp only [mapSet, hk, if_false, List.map_cons, keys_mapSet key v rest, List.mem_cons, hk',
        false_or]
      split <;> simp

theorem nodup_keys_mapSet {β : Type} (key : Bytes) (v : β) (m : List (Bytes × β))
    (h : (m.map Prod.fst).Nodup) : ((mapSet key v m).map Prod.fst).Nodup := by
  rw [keys_mapSet]
  split
  · exact h
  · rename_i hk
    exact List.Nodup.append h (List.nodup_singleton key) (by simpa using hk)

theorem decodeEntries_nodup (J : Json) (flag : Bool) : ∀ (l : List (Bytes × Generic))
    (a : List (Bytes × Any)), (a.map Prod.fst).Nodup →
      ((decodeEntries J l flag a).map Prod.fst).Nodup
  | [], a, h => by simpa [decodeEntries] using h
  | (k, v) :: rest, a, h => by
    rw [decodeEntries]
    exact decodeEntries_nodup J flag rest _ (nodup_keys_mapSet _ _ _ h)

theorem decodeEntries_eq_map (J : Json) (flag : Bool) : ∀ (l : List (Bytes × Generic))
    (a : List (Bytes × Any)), ((a.map Prod.fst) ++ l.map Prod.fst).Nodup →
      decodeEntries J l flag a = a ++ l.map (fun p => (p.1, decode J p.2 flag))
  | [], a, _ => by simp [decodeEntries]
  | (k, v) :: rest, a, h => by
    rw [decodeEntries]
    have hk : k ∉ a.map Prod.fst := by
      intro hm
      have := (List.nodup_append.1 h).2.2
      exact this hm (by simp)
    rw [mapSet_of_not_mem _ _ _ hk]
    rw [decodeEntries_eq_map J flag rest _ (by simpa using h)]
    simp

theorem mapGet_of_mem {β : Type} : ∀ (m : List (Bytes × β)) (k : Bytes) (v : β),
    (m.map Prod.fst).Nodup → (k, v) ∈ m → mapGet k m = some v
  | [], _, _, _, h => by simp at h
  | (k1, w) :: rest, k, v, hn, h => by
    simp only [List.map_cons, List.nodup_cons] at hn
    rcases List.mem_cons.1 h with e | e
    · cases e; simp [mapGet]
    · have hk : ¬ k1 = k := by
        intro e1
        subst e1
        exact hn.1 (List.mem_map_of_mem Prod.fst e)
      simp [mapGet, hk, mapGet_of_mem rest k v hn.2 e]

theorem mapGet_isSome {β : Type} (k : Bytes) : ∀ m : List (Bytes × β),
    (mapGet k m).isSome = true ↔ k ∈ m.map Prod.fst
  | [] => by simp [mapGet]
  | (k1, w) :: rest => by
    by_cases hk : k1 = k
    · simp [mapGet, hk]
    · have hk' : ¬ k = k1 := fun e => hk e.symm
      simp [mapGet, hk, hk', mapGet_isSome k rest]

theorem Index_natCast (data : List Any) (i : Nat) : Array.Index data (i : Int) = data[i]? := by
  simp [Array.Index]

/-! ## The properties of the specification, continued -/

/-- C11: object decoding preserves keys. For a generic mapping (each key
once) and either flag, `decode` gives an `Object` with the keys of the
mapping, `Len` their number, and `Value(k)` returns `(decode(m[k], flag),
true)` for every entry of the mapping. -/
theorem decode_map_preserves_keys (J : Json) (entries : List (Bytes × Generic)) (flag : Bool)
    (h : (entries.map Prod.fst).Nodup) :
    (ObjectOK (decode J (.map entries) flag)).2 = true ∧
    Object.Keys (ObjectOK (decode J (.map entries) flag)).1 = entries.map Prod.fst ∧
    Object.Len (ObjectOK (decode J (.map entries) flag)).1 = entries.length ∧
    ∀ k v, (k, v) ∈ entries →
      Object.Value (ObjectOK (decode J (.map entries) flag)).1 k =
        (some (decode J v flag), true) := by
  have hd : decode J (.map entries) flag =
      .Object (entries.map fun p => (p.1, decode J p.2 flag)) := by
    rw [decode, decodeEntries_eq_map J flag entries [] (by simpa using h)]
    simp
  rw [hd]
  refine ⟨rfl, ?_, ?_, ?_⟩
  · simp [ObjectOK, Object.Keys, Function.comp_def]
  · simp [ObjectOK, Object.Len]
  · intro k v hkv
    have hm : (k, decode J v flag) ∈ entries.map fun p => (p.1, decode J p.2 flag) :=
      List.mem_map.2 ⟨(k, v), hkv, rfl⟩
    have hn : ((entries.map fun p => (p.1, decode J p.2 flag)).map Prod.fst).Nodup := by
      simpa [Function.comp_def] using h
    simp [ObjectOK, Object.Value, mapGet_of_mem _ _ _ hn hm]

/-- C11 at the mapping with the entries `"a": 1` and `"b": [true, null]`. -/
theorem decode_map_preserves_keys_witness :
    ([([97], Generic.float64 ⟨false, 1023, 0⟩),
      ([98], Generic.seq [.bool true, .nil])].map Prod.fst).Nodup ∧
    Object.Value (ObjectOK (decode goJson (.map [([97], Generic.float64 ⟨false, 1023, 0⟩),
      ([98], Generic.seq [.bool true, .nil])]) true)).1 [98] =
        (some (decode goJson (.seq [.bool true, .nil]) true), true) :=
  ⟨by decide, (decode_map_preserves_keys goJson _ true (by decide)).2.2.2 [98] _
    (List.mem_cons_of_mem _ (List.mem_cons_self _ _))⟩

/-- C12: array decoding keeps the source order when the flag is off. For a
generic sequence `s`, `decode(s, false)` is an `Array` with `Len` the length
of `s`, and `Index(i)` is `decode(s[i], false)` for every index in range (and
fails for every other `i`, as `s[i]` does). -/
theorem decode_seq_preserves_order (J : Json) (s : List Generic) :
    (ArrayOK (decode J (.seq s) false)).2 = true ∧
    Array.Len (ArrayOK (decode J (.seq s) false)).1 = s.length ∧
    ∀ i : Nat, Array.Index (ArrayOK (decode J (.seq s) false)).1 (i : Int) =
      (s[i]?).map (fun x => decode J x false) := by
  have hd : decode J (.seq s) false = .Array (s.map fun x => decode J x false) := by
    simp [decode, decodeElems_eq_map]
  rw [hd]
  refine ⟨rfl, by simp [ArrayOK, Array.Len], ?_⟩
  intro i
  simp [ArrayOK, Index_natCast]

/-- C13: safe downcast. Each of the eight accessors is total, returns
`ok = true` exactly when `v.T()` is the tag of its variant, and then returns
the payload of `v` itself; exactly one of the eight matches a given `v`. -/
theorem accessor_matches_tag (v : Any) :
    (((ObjectOK v).2 = true ↔ v.T = TObject) ∧
      ((ObjectOK v).2 = true → v = .Object (ObjectOK v).1)) ∧
    (((ArrayOK v).2 = true ↔ v.T = TArray) ∧
      ((ArrayOK v).2 = true → v = .Array (ArrayOK v).1)) ∧
    (((NumberIntOK v).2 = true ↔ v.T = TNumberInt) ∧
      ((NumberIntOK v).2 = true → v = .NumberInt (NumberIntOK v).1)) ∧
    (((NumberUintOK v).2 = true ↔ v.T = TNumberUint) ∧
      ((NumberUintOK v).2 = true → v = .NumberUint (NumberUintOK v).1)) ∧
    (((NumberFloatOK v).2 = true ↔ v.T = TNumberFloat) ∧
      ((NumberFloatOK v).2 = true → v = .NumberFloat (NumberFloatOK v).1)) ∧
    (((StringOK v).2 = true ↔ v.T = TString) ∧
      ((StringOK v).2 = true → v = .String (StringOK v).1)) ∧
    (((BoolOK v).2 = true ↔ v.T = TBool) ∧
      ((BoolOK v).2 = true → v = .Bool (BoolOK v).1)) ∧
    (((NullOK v).2 = true ↔ v.T = TNull) ∧
      ((NullOK v).2 = true → v = .Null)) ∧
    matchCount v = 1 := by
  cases v <;>
    simp only [ObjectOK, ArrayOK, NumberIntOK, NumberUintOK, NumberFloatOK, StringOK, BoolOK,
      NullOK, Any.T, matchCount, true_iff, implies_true, and_true, true_and, Bool.false_eq_true,
      false_implies, false_iff] <;>
    decide

/-- C13 at the value `NumberInt(7)`: `NumberIntOK` matches and returns it. -/
theorem accessor_matches_tag_witness :
    (NumberIntOK (.NumberInt 7)).2 = true ∧
    Any.NumberInt 7 = .NumberInt (NumberIntOK (.NumberInt 7)).1 ∧
    (ObjectOK (.NumberInt 7)).2 = false :=
  ⟨rfl, (accessor_matches_tag (.NumberInt 7)).2.2.1.2 rfl, rfl⟩

/-- C14: the rendering rule. `String()` is the empty string on `Null`, the
raw contents on a `String`, and on every other variant the bytes that
`MarshalJSON()` returns, whenever that encoding succeeds. -/
theorem render_rule (J : Json) :
    Any.render J .Null = [] ∧
    (∀ s : Bytes, Any.render J (.String s) = s) ∧
    ∀ (v : Any) (b : Bytes), v ≠ .Null → (∀ s, v ≠ .String s) →
      Any.MarshalJSON J v = some b → Any.render J v = b := by
  refine ⟨rfl, fun _ => rfl, ?_⟩
  intro v b hn hs h
  cases v with
  | Object data => rw [Any.MarshalJSON] at h; simp [Any.render, h]
  | Array data => rw [Any.MarshalJSON] at h; simp [Any.render, h]
  | NumberInt data => rw [Any.MarshalJSON] at h; cases h; rfl
  | NumberUint data => rw [Any.MarshalJSON] at h; cases h; rfl
  | NumberFloat data =>
    rw [Any.MarshalJSON] at h
    rw [Any.render]
    split at h
    · simp at h
    · rename_i hc
      cases h
      simp [hc]
  | String data => exact absurd rfl (hs data)
  | Bool data => rw [Any.MarshalJSON] at h; cases h; rfl
  | Null => exact absurd rfl hn

/-- C14 at the array `[1, true]`, rendered as its encoding `[1,true]`. -/
theorem render_rule_witness :
    Any.MarshalJSON goJson (.Array [.NumberInt 1, .Bool true]) = some (bytes "[1,true]") ∧
    Any.render goJson (.Array [.NumberInt 1, .Bool true]) = bytes "[1,true]" :=
  ⟨rfl, (render_rule goJson).2.2 _ _ (fun h => Any.noConfusion h)
    (fun _ h => Any.noConfusion h) rfl⟩

/-- C15: the accessors of an `Object` agree. On a map (each key once),
`Keys()` has `Len()` elements without duplicates, a key occurs in `Keys()`
exactly when `Value` finds it, and `Value` returns the nil value when it does
not. Every `Object` that `decode` builds holds such a map. -/
theorem Object_accessors_agree (data : List (Bytes × Any)) (h : (data.map Prod.fst).Nodup) :
    (Object.Keys data).length = Object.Len data ∧
    (Object.Keys data).Nodup ∧
    (∀ k : Bytes, k ∈ Object.Keys data ↔ (Object.Value data k).2 = true) ∧
    (∀ k : Bytes, (Object.Value data k).2 = false → (Object.Value data k).1 = none) ∧
    (∀ (J : Json) (entries : List (Bytes × Generic)) (flag : Bool),
      (Object.Keys (ObjectOK (decode J (.map entries) flag)).1).Nodup) := by
  refine ⟨by simp [Object.Keys, Object.Len], h, ?_, ?_, ?_⟩
  · intro k
    rw [Object.Keys, ← mapGet_isSome k data, Object.Value]
    cases mapGet k data <;> simp
  · intro k
    rw [Object.Value]
    cases mapGet k data <;> simp
  · intro J entries flag
    rw [decode]
    exact decodeEntries_nodup J flag entries [] (by simp)

/-- C15 at the map with the keys `a` and `b`. -/
theorem Object_accessors_agree_witness :
    ([([97], Any.Null), ([98], Any.Bool true)].map Prod.fst).Nodup ∧
    (Object.Keys [([97], Any.Null), ([98], Any.Bool true)]).length =
      Object.Len [([97], Any.Null), ([98], Any.Bool true)] ∧
    (Object.Keys [([97], Any.Null), ([98], Any.Bool true)]).Nodup :=
  ⟨by decide, (Object_accessors_agree _ (by decide)).1, (Object_accessors_agree _ (by decide)).2.1⟩

/-- C16: the append contract. After `a.Append(v)` on an `Array` of length
`n`, the length is `n + 1`, `Index(n)` returns `v`, and `Index(i)` returns
what it returned before for every other `i` (the same element for
`0 <= i < n`). -/
theorem Array_Append_contract (a : List Any) (v : Any) :
    Array.Len (Array.Append a v) = Array.Len a + 1 ∧
    Array.Index (Array.Append a v) (Array.Len a : Int) = some v ∧
    (∀ i : Int, Array.Index (Array.Append a v) i =
      if i = (Array.Len a : Int) then some v else Array.Index a i) ∧
    (∀ i : Nat, i < Array.Len a →
      Array.Index (Array.Append a v) (i : Int) = a[i]? ∧ (a[i]?).isSome = true) := by
  refine ⟨by simp [Array.Len, Array.Append], by simp [Array.Len, Array.Append, Index_natCast],
    ?_, ?_⟩
  · intro i
    by_cases hi : i < 0
    · have : ¬ i = (Array.Len a : Int) := by omega
      simp [Array.Index, hi, this]
    · obtain ⟨n, rfl⟩ := Int.eq_ofNat_of_zero_le (by omega : 0 ≤ i)
      simp only [Index_natCast, Array.Append, Array.Len, Nat.cast_inj]
      by_cases hn : n = a.length
      · simp [hn]
      · simp only [hn, if_false]
        by_cases hlt : n < a.length
        · rw [List.getElem?_append_left hlt]
        · rw [List.getElem?_eq_none (by simp; omega), List.getElem?_eq_none (by omega)]
  · intro i hi
    simp only [Array.Len] at hi
    simp [Index_natCast, Array.Append, List.getElem?_append_left hi, hi]

/-- C16 at the array `[null, true]` and the value `false`. -/
theorem Array_Append_contract_witness :
    1 < Array.Len [Any.Null, .Bool true] ∧
    Array.Index (Array.Append [Any.Null, .Bool true] (.Bool false)) ((1 : Nat) : Int) =
      [Any.Null, .Bool true][1]? :=
  ⟨by decide, ((Array_Append_contract [Any.Null, .Bool true] (.Bool false)).2.2.2 1
    (by decide)).1⟩

/-- C17: an index out of bounds never yields a value. `Index(i)` returns an
element exactly when `0 <= i < Len()`, and then the element at position `i`;
for every other `i`, and for every `i` on the empty `Array`, the call fails. -/
theorem Array_Index_in_bounds (a : List Any) (i : Int) :
    ((Array.Index a i).isSome = true ↔ 0 ≤ i ∧ i < (Array.Len a : Int)) ∧
    (Array.Index a i = none ↔ i < 0 ∨ (Array.Len a : Int) ≤ i) ∧
    Array.Index [] i = none ∧
    (∀ n : Nat, Array.Index a (n : Int) = a[n]?) := by
  refine ⟨?_, ?_, ?_, Index_natCast a⟩
  · by_cases hi : i < 0
    · simp [Array.Index, hi]
    · obtain ⟨n, rfl⟩ := Int.eq_ofNat_of_zero_le (by omega : 0 ≤ i)
      rw [Index_natCast, Array.Len]
      constructor
      · intro h
        have hn : n < a.length := by
          by_contra hc
          rw [List.getElem?_eq_none (by omega)] at h
          simp at h
        omega
      · intro h
        rw [List.getElem?_eq_getElem (by omega)]
        rfl
  · by_cases hi : i < 0
    · simp [Array.Index, hi]
    · obtain ⟨n, rfl⟩ := Int.eq_ofNat_of_zero_le (by omega : 0 ≤ i)
      simp [Index_natCast, Array.Len]
  · simp [Array.Index]

/-- C17 at the array `[null]`: `Index(0)` returns its element, `Index(1)` and
`Index(-1)` fail. -/
theorem Array_Index_in_bounds_witness :
    Array.Index [Any.Null] 0 = some .Null ∧ Array.Index [Any.Null] 1 = none ∧
    Array.Index [Any.Null] (-1) = none :=
  ⟨rfl, (Array_Index_in_bounds [Any.Null] 1).2.1.2 (Or.inr (by decide)),
    (Array_Index_in_bounds [Any.Null] (-1)).2.1.2 (Or.inl (by decide))⟩

/-- C19: `IsNumber` holds for exactly the tags `NumberInt`, `NumberUint` and
`NumberFloat`; it is false for the five other variant tags and for the
constant `Number`, and no variant has the tag `Number`. -/
theorem IsNumber_characterisation :
    (∀ t : T, T.IsNumber t = true ↔ t = TNumberInt ∨ t = TNumberUint ∨ t = TNumberFloat) ∧
    T.IsNumber TObject = false ∧ T.IsNumber TArray = false ∧ T.IsNumber TString = false ∧
    T.IsNumber TBool = false ∧ T.IsNumber TNull = false ∧ T.IsNumber TNumber = false ∧
    (∀ v : Any, v.T ≠ TNumber) ∧
    (∀ v : Any, T.IsNumber v.T = true ↔
      (NumberIntOK v).2 = true ∨ (NumberUintOK v).2 = true ∨ (NumberFloatOK v).2 = true) := by
  refine ⟨?_, by decide, by decide, by decide, by decide, by decide, by decide, ?_, ?_⟩
  · intro t
    unfold T.IsNumber
    split <;> simp_all
  · intro v
    cases v <;> simp only [Any.T] <;> decide
  · intro v
    cases v <;> simp only [Any.T, NumberIntOK, NumberUintOK, NumberFloatOK] <;> decide

/-! ## Failing encodings -/

theorem allSome_eq_none_iff {β : Type} : ∀ l : List (Option β), allSome l = none ↔ none ∈ l
  | [] => by simp [allSome]
  | none :: rest => by simp [allSome]
  | some b :: rest => by simp [allSome, allSome_eq_none_iff rest]

theorem allSomeSnd_eq_none_iff {β : Type} : ∀ l : List (Bytes × Option β),
    allSomeSnd l = none ↔ ∃ p ∈ l, p.2 = none
  | [] => by simp [allSomeSnd]
  | (k, none) :: rest => by simp [allSomeSnd]
  | (k, some b) :: rest => by simp [allSomeSnd, allSomeSnd_eq_none_iff rest]

theorem arrayText_eq_none_iff (l : List (Option Bytes)) : arrayText l = none ↔ none ∈ l := by
  cases l with
  | nil => simp [arrayText]
  | cons p ps => simp only [arrayText, Option.map_eq_none', allSome_eq_none_iff]

theorem objectText_eq_none_iff (J : Json) (ms : List (Bytes × Option Bytes)) :
    objectText J ms = none ↔ ∃ p ∈ ms, p.2 = none := by
  simp only [objectText, Option.map_eq_none', allSomeSnd_eq_none_iff, sortedEntries]
  constructor
  · rintro ⟨p, hp, h⟩
    exact ⟨p, (SliceStable_perm _ ms).mem_iff.1 hp, h⟩
  · rintro ⟨p, hp, h⟩
    exact ⟨p, (SliceStable_perm _ ms).mem_iff.2 hp, h⟩

theorem MarshalJSON_eq_none_iff (J : Json) (v : Any) :
    Any.MarshalJSON J v = none ↔
      (∃ f, v = .NumberFloat f ∧ (f.IsInf || f.IsNaN) = true) ∨
      (∃ d, v = .Object d ∧ ∃ p ∈ d, Any.MarshalJSON J p.2 = none) ∨
      (∃ d, v = .Array d ∧ ∃ x ∈ d, Any.MarshalJSON J x = none) := by
  cases v with
  | Object data =>
    rw [marshal_Object, objectText_eq_none_iff]
    constructor
    · rintro ⟨p, hp, h⟩
      obtain ⟨q, hq, rfl⟩ := List.mem_map.1 hp
      exact Or.inr (Or.inl ⟨data, rfl, q, hq, h⟩)
    · rintro (⟨f, hf, _⟩ | ⟨d, hd, q, hq, h⟩ | ⟨d, hd, _⟩)
      · exact Any.noConfusion hf
      · cases hd
        exact ⟨_, List.mem_map.2 ⟨q, hq, rfl⟩, h⟩
      · exact Any.noConfusion hd
  | Array data =>
    rw [marshal_Array, arrayText_eq_none_iff]
    constructor
    · intro h
      obtain ⟨x, hx, hn⟩ := List.mem_map.1 h
      exact Or.inr (Or.inr ⟨data, rfl, x, hx, hn⟩)
    · rintro (⟨f, hf, _⟩ | ⟨d, hd, _⟩ | ⟨d, hd, x, hx, h⟩)
      · exact Any.noConfusion hf
      · exact Any.noConfusion hd
      · cases hd
        exact List.mem_map.2 ⟨x, hx, h⟩
  | NumberInt data =>
    rw [Any.MarshalJSON]
    constructor
    · intro h; exact Option.noConfusion h
    · rintro (⟨f, hf, _⟩ | ⟨d, hd, _⟩ | ⟨d, hd, _⟩) <;> exact Any.noConfusion (by assumption)
  | NumberUint data =>
    rw [Any.MarshalJSON]
    constructor
    · intro h; exact Option.noConfusion h
    · rintro (⟨f, hf, _⟩ | ⟨d, hd, _⟩ | ⟨d, hd, _⟩) <;> exact Any.noConfusion (by assumption)
  | NumberFloat data =>
    rw [Any.MarshalJSON]
    constructor
    · intro h
      split at h
      · rename_i hc
        exact Or.inl ⟨data, rfl, hc⟩
      · exact Option.noConfusion h
    · rintro (⟨f, hf, hc⟩ | ⟨d, hd, _⟩ | ⟨d, hd, _⟩)
      · cases hf
        rw [if_pos hc]
      · exact Any.noConfusion hd
      · exact Any.noConfusion hd
  | String data =>
    rw [Any.MarshalJSON]
    constructor
    · intro h; exact Option.noConfusion h
    · rintro (⟨f, hf, _⟩ | ⟨d, hd, _⟩ | ⟨d, hd, _⟩) <;> exact Any.noConfusion (by assumption)
  | Bool data =>
    rw [Any.MarshalJSON]
    constructor
    · intro h; exact Option.noConfusion h
    · rintro (⟨f, hf, _⟩ | ⟨d, hd, _⟩ | ⟨d, hd, _⟩) <;> exact Any.noConfusion (by assumption)
  | Null =>
    rw [Any.MarshalJSON]
    constructor
    · intro h; exact Option.noConfusion h
    · rintro (⟨f, hf, _⟩ | ⟨d, hd, _⟩ | ⟨d, hd, _⟩) <;> exact Any.noConfusion (by assumption)

/-! ## The floats the program holds -/

theorem isFinite_of_expo (f : Float64) (h : f.expo.val ≠ 2047) : f.IsFinite = true := by
  simp [Float64.IsFinite, Float64.IsInf, Float64.IsNaN, h]

theorem roundFloat_isFinite (sign : Bool) (num den : Nat) (f : Float64)
    (h : roundFloat sign num den = some f) : f.IsFinite = true := by
  unfold roundFloat at h
  simp only at h
  split_ifs at h
  all_goals first
    | exact Option.noConfusion h
    | (cases h; rfl)
    | (cases h
       apply isFinite_of_expo
       simp only
       omega)

theorem parseFloat_isFinite (neg : Bool) (mant : Nat) (e10 : Int) (f : Float64)
    (h : parseFloat neg mant e10 = some f) : f.IsFinite = true :=
  roundFloat_isFinite _ _ _ _ h

theorem scanNumberAbs_isFinite (neg : Bool) (input : Bytes) (f : Float64) (rest : Bytes)
    (h : scanNumberAbs neg input = some (some f, rest)) : f.IsFinite = true := by
  unfold scanNumberAbs at h
  repeat' split at h
  all_goals first
    | exact Option.noConfusion h
    | (simp only [Option.some.injEq, Prod.mk.injEq] at h
       exact parseFloat_isFinite _ _ _ _ h.1)

theorem scanNumber_isFinite (input : Bytes) (f : Float64) (rest : Bytes)
    (h : scanNumber input = some (some f, rest)) : f.IsFinite = true := by
  unfold scanNumber at h
  split at h
  · exact scanNumberAbs_isFinite _ _ _ _ h
  · exact scanNumberAbs_isFinite _ _ _ _ h

theorem seqFloatsFinite_iff : ∀ l : List Generic,
    seqFloatsFinite l = true ↔ ∀ x ∈ l, x.floatsFinite = true
  | [] => by simp [seqFloatsFinite]
  | x :: xs => by simp [seqFloatsFinite, seqFloatsFinite_iff xs]

theorem entriesFloatsFinite_iff : ∀ l : List (Bytes × Generic),
    entriesFloatsFinite l = true ↔ ∀ p ∈ l, p.2.floatsFinite = true
  | [] => by simp [entriesFloatsFinite]
  | (k, x) :: rest => by simp [entriesFloatsFinite, entriesFloatsFinite_iff rest]

theorem elemsFloatsFinite_iff : ∀ l : List Any,
    elemsFloatsFinite l = true ↔ ∀ x ∈ l, treeFloatsFinite x = true
  | [] => by simp [elemsFloatsFinite]
  | x :: xs => by simp [elemsFloatsFinite, elemsFloatsFinite_iff xs]

theorem fieldsFloatsFinite_iff : ∀ l : List (Bytes × Any),
    fieldsFloatsFinite l = true ↔ ∀ p ∈ l, treeFloatsFinite p.2 = true
  | [] => by simp [fieldsFloatsFinite]
  | (k, x) :: rest => by simp [fieldsFloatsFinite, fieldsFloatsFinite_iff rest]

theorem floatsFinite_seq (l : List Generic) (h : ∀ x ∈ l, x.floatsFinite = true) :
    (Generic.seq l).floatsFinite = true := by
  rw [Generic.floatsFinite]; exact (seqFloatsFinite_iff l).2 h

theorem floatsFinite_map (l : List (Bytes × Generic)) (h : ∀ p ∈ l, p.2.floatsFinite = true) :
    (Generic.map l).floatsFinite = true := by
  rw [Generic.floatsFinite]; exact (entriesFloatsFinite_iff l).2 h

theorem forall_mem_append_singleton {α : Type} (p : α → Prop) (l : List α) (v : α)
    (hl : ∀ x ∈ l, p x) (hv : p v) : ∀ x ∈ l ++ [v], p x := by
  intro x hx
  rcases List.mem_append.1 hx with h | h
  · exact hl x h
  · rw [List.mem_singleton.1 h]; exact hv

theorem forall_mem_mapSet {β : Type} (p : β → Prop) (key : Bytes) (v : β)
    (m : List (Bytes × β)) (hm : ∀ q ∈ m, p q.2) (hv : p v) : ∀ q ∈ mapSet key v m, p q.2 := by
  intro q hq
  rcases mem_mapSet key v m q hq with h | h
  · rw [h]; exact hv
  · exact hm q h

mutual
theorem parseValue_floatsFinite : ∀ (fuel depth : Nat) (input : Bytes)
    (r : Generic × Bool × Bytes),
    parseValue fuel depth input = some r → r.1.floatsFinite = true
  | 0, _, _, _, h => by simp [parseValue] at h
  | _ + 1, _, [], _, h => by simp [parseValue] at h
  | fuel + 1, depth, c :: rest, r, h => by
    rw [parseValue] at h
    split at h
    · split at h
      · simp at h
      · split at h
        · cases h; rfl
        · exact parseMembers_floatsFinite fuel _ _ _ _ _ (by simp) h
    · split at h
      · split at h
        · simp at h
        · split at h
          · cases h; rfl
          · exact parseElems_floatsFinite fuel _ _ _ _ _ (by simp) h
      · split at h
        · split at h
          · simp at h
          · cases h; rfl
        · split at h
          · split at h
            · cases h; rfl
            · simp at h
          · split at h
            · split at h
              · cases h; rfl
              · simp at h
            · split at h
              · split at h
                · cases h; rfl
                · simp at h
              · split at h
                · simp at h
                · rename_i f rest1 hn
                  cases h
                  exact scanNumber_isFinite _ _ _ hn
                · cases h; rfl
theorem parseElems_floatsFinite : ∀ (fuel depth : Nat) (input : Bytes) (acc : List Generic)
    (err : Bool) (r : Generic × Bool × Bytes), (∀ x ∈ acc, x.floatsFinite = true) →
    parseElems fuel depth input acc err = some r → r.1.floatsFinite = true
  | 0, _, _, _, _, _, _, h => by simp [parseElems] at h
  | fuel + 1, depth, input, acc, err, r, hacc, h => by
    rw [parseElems] at h
    split at h
    · simp at h
    · rename_i v e rest hv
      have h1 := parseValue_floatsFinite fuel _ _ _ hv
      have hacc1 := forall_mem_append_singleton _ acc v hacc h1
      split at h
      · exact parseElems_floatsFinite fuel _ _ _ _ _ hacc1 h
      · split at h
        · cases h
          exact floatsFinite_seq _ hacc1
        · simp at h
theorem parseMembers_floatsFinite : ∀ (fuel depth : Nat) (input : Bytes)
    (acc : List (Bytes × Generic)) (err : Bool) (r : Generic × Bool × Bytes),
    (∀ p ∈ acc, p.2.floatsFinite = true) →
    parseMembers fuel depth input acc err = some r → r.1.floatsFinite = true
  | 0, _, _, _, _, _, _, h => by simp [parseMembers] at h
  | _ + 1, _, [], _, _, _, _, h => by simp [parseMembers] at h
  | fuel + 1, depth, c :: rest, acc, err, r, hacc, h => by
    rw [parseMembers] at h
    split at h
    · split at h
      · simp at h
      · rename_i key rest1 hq
        split at h
        · split at h
          · simp at h
          · rename_i v e rest3 hv
            have h1 := parseValue_floatsFinite fuel _ _ _ hv
            have hacc1 := forall_mem_mapSet (fun g : Generic => g.floatsFinite = true) key v acc
              hacc h1
            split at h
            · exact parseMembers_floatsFinite fuel _ _ _ _ _ hacc1 h
            · split at h
              · cases h
                exact floatsFinite_map _ hacc1
              · simp at h
        · simp at h
    · simp at h
end

theorem jsonUnmarshal_floatsFinite (data : Bytes) (v : Generic)
    (h : jsonUnmarshal data = .ok v) : v.floatsFinite = true := by
  unfold jsonUnmarshal at h
  split at h
  · simp at h
  · rename_i v1 e rest hp
    split at h
    · simp at h
    · split at h
      · simp at h
      · simp only [Except.ok.injEq] at h
        rw [← h]
        exact parseValue_floatsFinite _ _ _ _ hp

mutual
theorem decode_floatsFinite (J : Json) (flag : Bool) : ∀ v : Generic,
    v.floatsFinite = true → treeFloatsFinite (decode J v flag) = true
  | .map entries, h => by
    rw [Generic.floatsFinite] at h
    rw [decode, treeFloatsFinite]
    exact (fieldsFloatsFinite_iff _).2
      (decodeEntries_floatsFinite J flag entries [] h (by simp))
  | .seq elems, h => by
    rw [Generic.floatsFinite] at h
    rw [decode, treeFloatsFinite]
    have h1 := decodeElems_floatsFinite J flag elems [] h (by simp)
    refine (elemsFloatsFinite_iff _).2 ?_
    intro x hx
    split at hx
    · exact h1 x ((Array.Sort_perm J _).mem_iff.1 hx)
    · exact h1 x hx
  | .bool _, _ => rfl
  | .string _, _ => rfl
  | .int64 _, _ => rfl
  | .uint64 _, _ => rfl
  | .float64 f, h => by
    rw [Generic.floatsFinite] at h
    rw [decode, treeFloatsFinite]
    exact h
  | .nil, _ => rfl
  | .other, _ => rfl
theorem decodeElems_floatsFinite (J : Json) (flag : Bool) : ∀ (l : List Generic)
    (a : List Any), seqFloatsFinite l = true → (∀ x ∈ a, treeFloatsFinite x = true) →
      ∀ x ∈ decodeElems J l flag a, treeFloatsFinite x = true
  | [], a, _, ha => by simpa [decodeElems] using ha
  | v :: rest, a, h, ha => by
    rw [seqFloatsFinite, Bool.and_eq_true] at h
    rw [decodeElems]
    exact decodeElems_floatsFinite J flag rest _ h.2
      (forall_mem_append_singleton _ a _ ha (decode_floatsFinite J flag v h.1))
theorem decodeEntries_floatsFinite (J : Json) (flag : Bool) : ∀ (l : List (Bytes × Generic))
    (a : List (Bytes × Any)), entriesFloatsFinite l = true →
      (∀ p ∈ a, treeFloatsFinite p.2 = true) →
      ∀ p ∈ decodeEntries J l flag a, treeFloatsFinite p.2 = true
  | [], a, _, ha => by simpa [decodeEntries] using ha
  | (k, v) :: rest, a, h, ha => by
    rw [entriesFloatsFinite, Bool.and_eq_true] at h
    rw [decodeEntries]
    exact decodeEntries_floatsFinite J flag rest _ h.2
      (forall_mem_mapSet (fun t : Any => treeFloatsFinite t = true) k _ a ha
        (decode_floatsFinite J flag v h.1))
end

/-- Every tree `Unmarshal` or `UnmarshalWithSort` returns holds finite floats
only: the parser stores no NaN and no infinity (a number too large for a
`float64` is an error). -/
theorem Unmarshal_floatsFinite (data : Bytes) (t : Any)
    (h : (Unmarshal goJson data).1 = some t ∨ (UnmarshalWithSort goJson data).1 = some t) :
    treeFloatsFinite t = true := by
  unfold Unmarshal UnmarshalWithSort at h
  cases hp : goJson.Unmarshal data with
  | error e => rw [hp] at h; simp at h
  | ok v =>
    rw [hp] at h
    have hv := jsonUnmarshal_floatsFinite data v hp
    rcases h with h | h
    · simp only [Option.some.injEq] at h
      rw [← h]; exact decode_floatsFinite goJson false v hv
    · simp only [Option.some.injEq] at h
      rw [← h]; exact decode_floatsFinite goJson true v hv

mutual
theorem nodeFloatFinite_of_tree : ∀ (t : Any), treeFloatsFinite t = true →
    ∀ w ∈ subtrees t, nodeFloatFinite w = true
  | .Object data, h, w, hw => by
    rw [subtrees] at hw
    rcases List.mem_cons.1 hw with e | e
    · rw [e]; rfl
    · rw [treeFloatsFinite] at h
      exact nodeFloatFinite_of_fields data h w e
  | .Array data, h, w, hw => by
    rw [subtrees] at hw
    rcases List.mem_cons.1 hw with e | e
    · rw [e]; rfl
    · rw [treeFloatsFinite] at h
      exact nodeFloatFinite_of_elems data h w e
  | .NumberInt _, _, w, hw => by
    rw [subtrees, List.mem_singleton] at hw; rw [hw]; rfl
  | .NumberUint _, _, w, hw => by
    rw [subtrees, List.mem_singleton] at hw; rw [hw]; rfl
  | .NumberFloat f, h, w, hw => by
    rw [subtrees, List.mem_singleton] at hw
    rw [treeFloatsFinite] at h
    rw [hw, nodeFloatFinite]; exact h
  | .String _, _, w, hw => by
    rw [subtrees, List.mem_singleton] at hw; rw [hw]; rfl
  | .Bool _, _, w, hw => by
    rw [subtrees, List.mem_singleton] at hw; rw [hw]; rfl
  | .Null, _, w, hw => by
    rw [subtrees, List.mem_singleton] at hw; rw [hw]; rfl
theorem nodeFloatFinite_of_elems : ∀ (l : List Any), elemsFloatsFinite l = true →
    ∀ w ∈ elemsSubtrees l, nodeFloatFinite w = true
  | [], _, w, hw => by simp [elemsSubtrees] at hw
  | x :: xs, h, w, hw => by
    rw [elemsFloatsFinite, Bool.and_eq_true] at h
    rw [elemsSubtrees] at hw
    rcases List.mem_append.1 hw with e | e
    · exact nodeFloatFinite_of_tree x h.1 w e
    · exact nodeFloatFinite_of_elems xs h.2 w e
theorem nodeFloatFinite_of_fields : ∀ (l : List (Bytes × Any)), fieldsFloatsFinite l = true →
    ∀ w ∈ fieldsSubtrees l, nodeFloatFinite w = true
  | [], _, w, hw => by simp [fieldsSubtrees] at hw
  | (_, x) :: rest, h, w, hw => by
    rw [fieldsFloatsFinite, Bool.and_eq_true] at h
    rw [fieldsSubtrees] at hw
    rcases List.mem_append.1 hw with e | e
    · exact nodeFloatFinite_of_tree x h.1 w e
    · exact nodeFloatFinite_of_fields rest h.2 w e
end

/-- C18: `MarshalJSON` fails only through a child. For a node `v` that holds
a finite float when it is a `NumberFloat`, which is so of every node of every
tree `Unmarshal` and `UnmarshalWithSort` return (last part): if
`v.MarshalJSON()` returns an error, then `v` is an `Object` or an `Array` and
`MarshalJSON()` of one of its direct children returns an error. `MarshalJSON`
of a leaf (`NumberInt`, `NumberUint`, such a `NumberFloat`, `String`, `Bool`,
`Null`) never fails, and a container whose children all encode encodes. -/
theorem MarshalJSON_fails_only_through_child (J : Json) (v : Any)
    (hv : nodeFloatFinite v = true) :
    (Any.MarshalJSON J v = none →
      (∃ d, v = .Object d ∧ ∃ p ∈ d, Any.MarshalJSON J p.2 = none) ∨
      (∃ d, v = .Array d ∧ ∃ x ∈ d, Any.MarshalJSON J x = none)) ∧
    (∀ i : Int, Any.MarshalJSON J (.NumberInt i) ≠ none) ∧
    (∀ u : Nat, Any.MarshalJSON J (.NumberUint u) ≠ none) ∧
    (∀ f : Float64, nodeFloatFinite (.NumberFloat f) = true →
      Any.MarshalJSON J (.NumberFloat f) ≠ none) ∧
    (∀ s : Bytes, Any.MarshalJSON J (.String s) ≠ none) ∧
    (∀ b : Bool, Any.MarshalJSON J (.Bool b) ≠ none) ∧
    Any.MarshalJSON J .Null ≠ none ∧
    (∀ d : List Any, (∀ x ∈ d, Any.MarshalJSON J x ≠ none) →
      Any.MarshalJSON J (.Array d) ≠ none) ∧
    (∀ d : List (Bytes × Any), (∀ p ∈ d, Any.MarshalJSON J p.2 ≠ none) →
      Any.MarshalJSON J (.Object d) ≠ none) ∧
    (∀ (data : Bytes) (t : Any),
      (Unmarshal goJson data).1 = some t ∨ (UnmarshalWithSort goJson data).1 = some t →
      ∀ w ∈ subtrees t, nodeFloatFinite w = true) := by
  have hfin : ∀ f : Float64, nodeFloatFinite (.NumberFloat f) = true →
      (f.IsInf || f.IsNaN) = true → False := by
    intro f h1 h2
    rw [nodeFloatFinite, Float64.IsFinite, h2] at h1
    exact absurd h1 (by decide)
  refine ⟨?_, ?_, ?_, ?_, ?_, ?_, ?_, ?_, ?_, ?_⟩
  · intro h
    rcases (MarshalJSON_eq_none_iff J v).1 h with ⟨f, hf, hc⟩ | h1 | h1
    · rw [hf] at hv
      exact absurd hc (fun hc => hfin f hv hc)
    · exact Or.inl h1
    · exact Or.inr h1
  · intro i; simp [Any.MarshalJSON]
  · intro u; simp [Any.MarshalJSON]
  · intro f hf h
    rcases (MarshalJSON_eq_none_iff J _).1 h with ⟨g, hg, hc⟩ | ⟨d1, hd1, _⟩ | ⟨d1, hd1, _⟩
    · cases hg
      exact hfin f hf hc
    · exact Any.noConfusion hd1
    · exact Any.noConfusion hd1
  · intro s; simp [Any.MarshalJSON]
  · intro b; simp [Any.MarshalJSON]
  · simp [Any.MarshalJSON]
  · intro d hd h
    rcases (MarshalJSON_eq_none_iff J _).1 h with ⟨f, hf, _⟩ | ⟨d1, hd1, _⟩ | ⟨d1, hd1, x, hx, hn⟩
    · exact Any.noConfusion hf
    · exact Any.noConfusion hd1
    · cases hd1
      exact hd x hx hn
  · intro d hd h
    rcases (MarshalJSON_eq_none_iff J _).1 h with ⟨f, hf, _⟩ | ⟨d1, hd1, p, hp, hn⟩ | ⟨d1, hd1, _⟩
    · exact Any.noConfusion hf
    · cases hd1
      exact hd p hp hn
    · exact Any.noConfusion hd1
  · intro data t ht
    exact nodeFloatFinite_of_tree t (Unmarshal_floatsFinite data t ht)

/-- C18 at the tree of the document `[1.5, "x"]`: each of its nodes encodes.
In the model, an `Array` with a child that fails to encode (a `NumberFloat`
holding NaN, which no document yields) fails through that child. -/
theorem MarshalJSON_fails_only_through_child_witness :
    (Unmarshal goJson (bytes "[1.5, \x22x\x22]")).1 =
      some (.Array [.NumberFloat ⟨false, 1023, 2251799813685248⟩, .String [120]]) ∧
    nodeFloatFinite (.Array [.NumberFloat ⟨false, 1023, 2251799813685248⟩, .String [120]]) =
      true ∧
    Any.MarshalJSON goJson
      (.Array [.NumberFloat ⟨false, 1023, 2251799813685248⟩, .String [120]]) ≠ none ∧
    nodeFloatFinite (.Array [.NumberInt 1, .NumberFloat Float64.NaN]) = true ∧
    Any.MarshalJSON goJson (.Array [.NumberInt 1, .NumberFloat Float64.NaN]) = none ∧
    ((∃ d, Any.Array [.NumberInt 1, .NumberFloat Float64.NaN] = .Object d ∧
        ∃ p ∈ d, Any.MarshalJSON goJson p.2 = none) ∨
      (∃ d, Any.Array [.NumberInt 1, .NumberFloat Float64.NaN] = .Array d ∧
        ∃ x ∈ d, Any.MarshalJSON goJson x = none)) :=
  ⟨rfl, rfl,
    (MarshalJSON_fails_only_through_child goJson
      (.Array [.NumberFloat ⟨false, 1023, 2251799813685248⟩, .String [120]]) rfl).2.2.2.2.2.2.2.1
      _ (by
        intro x hx
        rcases List.mem_cons.1 hx with e | e
        · rw [e]; exact fun h => Option.noConfusion h
        · rw [List.mem_singleton.1 e]; exact fun h => Option.noConfusion h),
    rfl, rfl,
    (MarshalJSON_fails_only_through_child goJson
      (.Array [.NumberInt 1, .NumberFloat Float64.NaN]) rfl).1 rfl⟩

/-! ## Sorting with failing elements -/

theorem digitsAux_ne_nil : ∀ (fuel n : Nat) (acc : Bytes), acc ≠ [] → digitsAux fuel n acc ≠ []
  | 0, _, _, h => by simpa [digitsAux] using h
  | fuel + 1, n, acc, _ => by
    unfold digitsAux
    split
    · simp
    · exact digitsAux_ne_nil fuel _ _ (by simp)

theorem formatUint_ne_nil (n : Nat) : formatUint n ≠ [] := by
  unfold formatUint digitsAux
  split
  · simp
  · exact digitsAux_ne_nil _ _ _ (by simp)

theorem formatInt_ne_nil (i : Int) : formatInt i ≠ [] := by
  unfold formatInt
  split
  · simp
  · exact formatUint_ne_nil _

theorem fmtF_ne_nil (ds : Bytes) (dp : Int) : fmtF ds dp ≠ [] := by
  unfold fmtF
  intro h
  have h1 := (List.append_eq_nil.1 h).1
  split at h1
  · rename_i hdp
    have h2 := List.append_eq_nil.1 h1
    have h3 : ds = [] := by
      have := h2.1
      cases ds with
      | nil => rfl
      | cons c t =>
        obtain ⟨n, hn⟩ : ∃ n, dp.toNat = n + 1 := ⟨dp.toNat - 1, by omega⟩
        rw [hn] at this
        simp at this
    have h4 := h2.2
    rw [h3] at h4
    have : dp.toNat - ([] : Bytes).length = dp.toNat := by simp
    rw [this] at h4
    obtain ⟨n, hn⟩ : ∃ n, dp.toNat = n + 1 := ⟨dp.toNat - 1, by omega⟩
    rw [hn] at h4
    simp [List.replicate] at h4
  · simp at h1

theorem fmtE_ne_nil (ds : Bytes) (dp : Int) : fmtE ds dp ≠ [] := by
  unfold fmtE
  simp

theorem formatFloat_ne_nil (f : Float64) : formatFloat f ≠ [] := by
  unfold formatFloat
  split
  · simp
  · split
    · simp
    · split
      · split <;> simp
      · intro h
        have h1 := (List.append_eq_nil.1 h).2
        split at h1
        · exact fmtE_ne_nil _ _ h1
        · exact fmtF_ne_nil _ _ h1

theorem marshal_ne_nil (J : Json) (hfmt : ∀ f, J.formatFloat f ≠ []) (x : Any) (b : Bytes)
    (h : Any.MarshalJSON J x = some b) : b ≠ [] := by
  cases x with
  | Object data =>
    rw [Any.MarshalJSON, objectText] at h
    obtain ⟨ms, _, rfl⟩ := Option.map_eq_some'.1 h
    simp
  | Array data =>
    rw [Any.MarshalJSON] at h
    cases hm : marshalElems J data with
    | nil => rw [hm, arrayText] at h; cases h; simp
    | cons p ps =>
      rw [hm, arrayText] at h
      obtain ⟨ts, _, rfl⟩ := Option.map_eq_some'.1 h
      simp
  | NumberInt data => rw [Any.MarshalJSON] at h; cases h; exact formatInt_ne_nil _
  | NumberUint data => rw [Any.MarshalJSON] at h; cases h; exact formatUint_ne_nil _
  | NumberFloat data =>
    rw [Any.MarshalJSON] at h
    split at h
    · exact Option.noConfusion h
    · cases h; exact hfmt _
  | String data => rw [Any.MarshalJSON] at h; cases h; simp
  | Bool data => rw [Any.MarshalJSON] at h; cases h; split <;> simp
  | Null => rw [Any.MarshalJSON] at h; cases h; simp

theorem strLess_nil_right (s : Bytes) : strLess s [] = false := by
  cases s <;> rfl

theorem tied_key_iff {α : Type} (key : α → Bytes) (x y : α) :
    tied (fun a b => strLess (key a) (key b)) x y = true ↔ key x = key y := by
  simp only [tied, Bool.and_eq_true, Bool.not_eq_true']
  constructor
  · rintro ⟨h1, h2⟩
    exact strLess_connected _ _ h1 h2
  · intro h
    rw [h]
    exact ⟨strLess_irrefl _, strLess_irrefl _⟩

theorem sortKey_of_fails (J : Json) (x : Any) (h : marshalFails J x = true) :
    sortKey J x = [] := by
  unfold marshalFails at h
  unfold sortKey
  cases hx : Any.MarshalJSON J x with
  | none => rfl
  | some b => rw [hx] at h; simp at h

theorem sortKey_of_succeeds (J : Json) (hfmt : ∀ f, J.formatFloat f ≠ []) (x : Any)
    (h : marshalFails J x = false) : sortKey J x ≠ [] := by
  unfold marshalFails at h
  unfold sortKey
  cases hx : Any.MarshalJSON J x with
  | none => rw [hx] at h; simp at h
  | some b => exact marshal_ne_nil J hfmt x b hx

theorem Array.Sort_failing_first (J : Json) (hfmt : ∀ f, J.formatFloat f ≠ [])
    (a : List Any) :
    Array.Sort J a =
      a.filter (marshalFails J) ++ Array.Sort J (a.filter fun x => !marshalFails J x) := by
  symm
  apply SliceStable_unique (strictWeak_key (sortKey J))
  · rw [List.pairwise_append]
    refine ⟨?_, Array.Sort_pairwise J _, ?_⟩
    · refine List.pairwise_of_forall_mem_list ?_
      intro x hx y hy
      rw [sortKey_of_fails J x (List.mem_filter.1 hx).2]
      exact strLess_nil_right _
    · intro x hx y _
      rw [sortKey_of_fails J x (List.mem_filter.1 hx).2]
      exact strLess_nil_right _
  · intro x
    rw [List.filter_append]
    have hS : (Array.Sort J (a.filter fun x => !marshalFails J x)).filter
        (tied (fun a b => strLess (sortKey J a) (sortKey J b)) x) =
        (a.filter fun x => !marshalFails J x).filter
          (tied (fun a b => strLess (sortKey J a) (sortKey J b)) x) :=
      SliceStable_filter_tied (strictWeak_key (sortKey J)) x _
    rw [hS, List.filter_filter, List.filter_filter]
    by_cases hx : sortKey J x = []
    · have h1 : ∀ y : Any, (tied (fun a b => strLess (sortKey J a) (sortKey J b)) x y &&
          marshalFails J y) = tied (fun a b => strLess (sortKey J a) (sortKey J b)) x y := by
        intro y
        cases ht : tied (fun a b => strLess (sortKey J a) (sortKey J b)) x y with
        | false => rfl
        | true =>
          have hk := (tied_key_iff (sortKey J) x y).1 ht
          cases hf : marshalFails J y with
          | true => rfl
          | false => exact absurd (hk ▸ hx) (sortKey_of_succeeds J hfmt y hf)
      have h2 : ∀ y : Any, (tied (fun a b => strLess (sortKey J a) (sortKey J b)) x y &&
          !marshalFails J y) = false := by
        intro y
        rw [← h1 y]
        cases marshalFails J y <;> simp
      simp only [h1, h2, List.filter_false, List.append_nil]
    · have h1 : ∀ y : Any, (tied (fun a b => strLess (sortKey J a) (sortKey J b)) x y &&
          marshalFails J y) = false := by
        intro y
        cases ht : tied (fun a b => strLess (sortKey J a) (sortKey J b)) x y with
        | false => rfl
        | true =>
          have hk := (tied_key_iff (sortKey J) x y).1 ht
          cases hf : marshalFails J y with
          | false => rfl
          | true => exact absurd (hk.trans (sortKey_of_fails J y hf)) hx
      have h2 : ∀ y : Any, (tied (fun a b => strLess (sortKey J a) (sortKey J b)) x y &&
          !marshalFails J y) = tied (fun a b => strLess (sortKey J a) (sortKey J b)) x y := by
        intro y
        have := h1 y
        cases ht : tied (fun a b => strLess (sortKey J a) (sortKey J b)) x y with
        | false => rfl
        | true => rw [ht] at this; cases hf : marshalFails J y <;> simp_all
      simp only [h1, h2, List.filter_false, List.nil_append]

/-- C20: canonicalization tolerates encoding failures. `Sort` is a total
function that keeps every element; an element whose `MarshalJSON` fails is
compared by the empty string, so the sorted slice is the failing elements, in
their original order, followed by the sorted succeeding elements. The
library writes at least one byte for a finite float (`hfmt`). -/
theorem Array_Sort_tolerates_failures (J : Json) (hfmt : ∀ f, J.formatFloat f ≠ [])
    (a : List Any) :
    Array.Sort J a =
      a.filter (marshalFails J) ++ Array.Sort J (a.filter fun x => !marshalFails J x) ∧
    (∀ x : Any, marshalFails J x = true → sortKey J x = []) ∧
    (∀ x : Any, marshalFails J x = false → sortKey J x ≠ []) ∧
    (Array.Sort J a).Perm a :=
  ⟨Array.Sort_failing_first J hfmt a, sortKey_of_fails J, sortKey_of_succeeds J hfmt,
    Array.Sort_perm J a⟩

/-- C20 at the slice `[2, NaN, 1, +Inf]`: sorted, it is `[NaN, +Inf, 1, 2]`. -/
theorem Array_Sort_tolerates_failures_witness :
    (∀ f, goJson.formatFloat f ≠ []) ∧
    Array.Sort goJson [.NumberInt 2, .NumberFloat Float64.NaN, .NumberInt 1,
        .NumberFloat ⟨false, 2047, 0⟩] =
      [.NumberFloat Float64.NaN, .NumberFloat ⟨false, 2047, 0⟩, .NumberInt 1, .NumberInt 2] :=
  ⟨formatFloat_ne_nil,
    (Array_Sort_tolerates_failures goJson formatFloat_ne_nil _).1.trans rfl⟩

end Ujson
